import Mathlib

/-!
Shallow embedding of the Go rules engine from src/main.py (functions
get_neighbours, get_group_and_liberties, remove_group, calculate_score,
valid_move, computer_move, and the move-handling branches of the game loop).

The board is the Python dict `stones`: a map from cells to player numbers
(1 = black, 2 = white), absence of a key meaning an empty intersection,
modelled as a function to Option.  Python sets become Finsets, the in-place
mutation of `stones` and of the capture tallies becomes explicit state
passing.  The breadth-first traversals are given a fuel argument large enough
that the queue is always exhausted first (proved below); the Python loops
carry no fuel but terminate for exactly the counting reason the fuel bound
encodes.
-/

namespace GoGame

set_option maxRecDepth 10000

/-- A board intersection, the Python tuple `(col, row)`. -/
abbrev Cell : Type := ℤ × ℤ

/-- The Python dict `stones`: occupied cells map to the owning player. -/
abbrev Board : Type := Cell → Option ℕ

/-- `0 <= col < grid_lines and 0 <= row < grid_lines`. -/
def in_bounds (grid_lines : ℤ) (c : Cell) : Prop :=
  0 ≤ c.1 ∧ c.1 < grid_lines ∧ 0 ≤ c.2 ∧ c.2 < grid_lines

instance (grid_lines : ℤ) (c : Cell) : Decidable (in_bounds grid_lines c) := by
  unfold in_bounds; infer_instance

/-- Mathematical 4-adjacency of two cells (used on the specification side). -/
def adjacent (a b : Cell) : Prop :=
  (a.1 - b.1).natAbs + (a.2 - b.2).natAbs = 1

instance (a b : Cell) : Decidable (adjacent a b) := by
  unfold adjacent; infer_instance

/-- `get_neighbours` (src/main.py:249): the in-bounds orthogonal neighbours of
`(col, row)`, in west, east, north, south order. -/
def get_neighbours (col row : ℤ) (grid_lines : ℤ) : List Cell :=
  ([(-1, 0), (1, 0), (0, -1), (0, 1)] : List (ℤ × ℤ)).filterMap fun d =>
    if in_bounds grid_lines (col + d.1, row + d.2) then
      some (col + d.1, row + d.2)
    else none

/-- The inner `for neighbour in get_neighbours(...)` loop of
`get_group_and_liberties` (src/main.py:291-297): same-colour stones are
enqueued, empty cells become liberties, cells already in the group and
opposing stones are skipped. -/
def scan_neighbours (player : ℕ) (stones : Board) (group : Finset Cell) :
    List Cell → List Cell → Finset Cell → List Cell × Finset Cell
  | [], queue, libs => (queue, libs)
  | n :: ns, queue, libs =>
    if n ∈ group then scan_neighbours player stones group ns queue libs
    else
      match stones n with
      | some q =>
        if q = player then scan_neighbours player stones group ns (queue ++ [n]) libs
        else scan_neighbours player stones group ns queue libs
      | none => scan_neighbours player stones group ns queue (insert n libs)

/-- The `while queue:` loop of `get_group_and_liberties` (src/main.py:286-298),
with a fuel argument standing in for the implicit termination of the Python
loop.  The fuel chosen in `get_group_and_liberties` is never exhausted. -/
def ggl_aux (player : ℕ) (stones : Board) (grid_lines : ℤ) :
    ℕ → List Cell → Finset Cell → Finset Cell → Finset Cell × Finset Cell
  | 0, _, group, libs => (group, libs)
  | _ + 1, [], group, libs => (group, libs)
  | fuel + 1, c :: queue, group, libs =>
    if c ∈ group then ggl_aux player stones grid_lines fuel queue group libs
    else
      let s := scan_neighbours player stones (insert c group)
        (get_neighbours c.1 c.2 grid_lines) queue libs
      ggl_aux player stones grid_lines fuel s.1 (insert c group) s.2

/-- `get_group_and_liberties` (src/main.py:268): breadth-first computation of
the group containing `(col, row)` and of its liberties. -/
def get_group_and_liberties (col row : ℤ) (player : ℕ) (stones : Board)
    (grid_lines : ℤ) : Finset Cell × Finset Cell :=
  ggl_aux player stones grid_lines
    (4 * (grid_lines.toNat * grid_lines.toNat) + 5) [(col, row)] ∅ ∅

/-- `remove_group` (src/main.py:301): delete every cell of `group` from the
board and credit each deleted stone to the tally of its colour. -/
def remove_group (group : Finset Cell) (stones : Board)
    (captured_black captured_white : ℕ) : Board × ℕ × ℕ :=
  (fun p => if p ∈ group then none else stones p,
   captured_black + (group.filter fun p => stones p = some 1).card,
   captured_white + (group.filter fun p => stones p = some 2).card)

/-- The `for neighbour in get_neighbours(col, row, grid_lines)` capture loop of
`valid_move` (src/main.py:406-410), processing the neighbour list in order
against the current (already partially reduced) board. -/
def resolve_captures (current_player : ℕ) (grid_lines : ℤ) :
    List Cell → Board → ℕ → ℕ → Board × ℕ × ℕ
  | [], stones, cb, cw => (stones, cb, cw)
  | n :: ns, stones, cb, cw =>
    match stones n with
    | some q =>
      if q = current_player then
        resolve_captures current_player grid_lines ns stones cb cw
      else
        let gl := get_group_and_liberties n.1 n.2 q stones grid_lines
        if gl.2 = ∅ then
          let r := remove_group gl.1 stones cb cw
          resolve_captures current_player grid_lines ns r.1 r.2.1 r.2.2
        else resolve_captures current_player grid_lines ns stones cb cw
    | none => resolve_captures current_player grid_lines ns stones cb cw

/-- Result of `valid_move`: the returned tuple `(group, liberties,
captured_black, captured_white)` together with the board, whose in-place
mutation the embedding makes explicit. -/
structure MoveResult where
  group : Finset Cell
  liberties : Finset Cell
  stones : Board
  captured_black : ℕ
  captured_white : ℕ

/-- `valid_move` (src/main.py:390): resolve captures of zero-liberty opposing
neighbour groups, then re-analyze the placed stone's own group.  Callers have
already written the placed stone into `stones`. -/
def valid_move (col row : ℤ) (stones : Board) (grid_lines : ℤ)
    (current_player : ℕ) (captured_black captured_white : ℕ) : MoveResult :=
  let r := resolve_captures current_player grid_lines
    (get_neighbours col row grid_lines) stones captured_black captured_white
  let gl := get_group_and_liberties col row current_player r.1 grid_lines
  ⟨gl.1, gl.2, r.1, r.2.1, r.2.2⟩

/-- The inner neighbour loop of `find_region` (src/main.py:361-365): stone
neighbours contribute their colour value, unvisited empty neighbours are
enqueued. -/
def region_scan_neighbours (stones : Board) (visited : Finset Cell) :
    List Cell → List Cell → Finset ℕ → List Cell × Finset ℕ
  | [], queue, nbrs => (queue, nbrs)
  | n :: ns, queue, nbrs =>
    match stones n with
    | some v => region_scan_neighbours stones visited ns queue (insert v nbrs)
    | none =>
      if n ∈ visited then region_scan_neighbours stones visited ns queue nbrs
      else region_scan_neighbours stones visited ns (queue ++ [n]) nbrs

/-- The `while queue:` loop of `find_region` (src/main.py:354-366); returns the
updated shared `visited` set, the region, and the bordering stone values. -/
def find_region_aux (stones : Board) (grid_lines : ℤ) :
    ℕ → List Cell → Finset Cell → Finset Cell → Finset ℕ →
    Finset Cell × Finset Cell × Finset ℕ
  | 0, _, visited, regions, nbrs => (visited, regions, nbrs)
  | _ + 1, [], visited, regions, nbrs => (visited, regions, nbrs)
  | fuel + 1, c :: queue, visited, regions, nbrs =>
    if c ∈ visited then
      find_region_aux stones grid_lines fuel queue visited regions nbrs
    else
      let s := region_scan_neighbours stones (insert c visited)
        (get_neighbours c.1 c.2 grid_lines) queue nbrs
      find_region_aux stones grid_lines fuel s.1 (insert c visited)
        (insert c regions) s.2

/-- `find_region` (src/main.py:339), the nested helper of `calculate_score`:
flood-fill of empty cells from `start`, sharing the outer `visited` set. -/
def find_region (stones : Board) (grid_lines : ℤ) (start : Cell)
    (visited : Finset Cell) : Finset Cell × Finset Cell × Finset ℕ :=
  find_region_aux stones grid_lines
    (4 * (grid_lines.toNat * grid_lines.toNat) + 5) [start] visited ∅ ∅

/-- The cell enumeration `for col in range(grid_lines): for row in
range(grid_lines)` of `calculate_score` (src/main.py:369-370). -/
def all_cells_list (grid_lines : ℤ) : List Cell :=
  (List.range grid_lines.toNat).flatMap fun (c : ℕ) =>
    (List.range grid_lines.toNat).map fun (r : ℕ) => (((c : ℤ), (r : ℤ)) : Cell)

/-- One iteration of the scoring scan of `calculate_score`
(src/main.py:371-383): skip visited or occupied cells, otherwise flood-fill
the region and attribute it when bordered by exactly one stone value. -/
def score_step (stones : Board) (grid_lines : ℤ)
    (acc : Finset Cell × ℕ × ℕ) (cell : Cell) : Finset Cell × ℕ × ℕ :=
  if cell ∈ acc.1 ∨ (stones cell).isSome then acc
  else
    let fr := find_region stones grid_lines cell acc.1
    if fr.2.2.card = 1 then
      if fr.2.2 = {1} then (fr.1, acc.2.1 + fr.2.1.card, acc.2.2)
      else if fr.2.2 = {2} then (fr.1, acc.2.1, acc.2.2 + fr.2.1.card)
      else (fr.1, acc.2.1, acc.2.2)
    else (fr.1, acc.2.1, acc.2.2)

/-- `calculate_score` (src/main.py:323): territory flood-fill over all cells,
then the final combination `black = territory_black + captured_white`,
`white = territory_white + captured_black + 7.5` (src/main.py:385-388). -/
def calculate_score (stones : Board) (grid_lines : ℤ)
    (captured_black captured_white : ℕ) : ℚ × ℚ :=
  let res := (all_cells_list grid_lines).foldl (score_step stones grid_lines)
    (∅, 0, 0)
  ((res.2.1 : ℚ) + captured_white,
   (res.2.2 : ℚ) + captured_black + 7.5)

/-- The `empty` list built by `computer_move` (src/main.py:426-430). -/
def empty_cells (stones : Board) (grid_lines : ℤ) : List Cell :=
  (List.range grid_lines.toNat).flatMap fun (c : ℕ) =>
    (List.range grid_lines.toNat).filterMap fun (r : ℕ) =>
      if stones (((c : ℤ), (r : ℤ)) : Cell) = none then
        some (((c : ℤ), (r : ℤ)) : Cell)
      else none

/-- The `while empty:` rejection loop of `computer_move`
(src/main.py:432-438).  `random.choice` is modelled by an arbitrary choice
oracle `pick`: the index into the current candidate list is `pick l` reduced
modulo the list length.  The fuel equals the initial number of empty cells,
and each iteration removes exactly one cell, so it is never exhausted with a
nonempty list. -/
def computer_move_aux (stones : Board) (grid_lines : ℤ) (pick : List Cell → ℕ) :
    ℕ → List Cell → Option Cell
  | 0, _ => none
  | _ + 1, [] => none
  | fuel + 1, l@(_ :: _) =>
    let move := l.getD (pick l % l.length) (0, 0)
    let gl := get_group_and_liberties move.1 move.2 2 stones grid_lines
    if gl.2 = ∅ then computer_move_aux stones grid_lines pick fuel (l.erase move)
    else some move

/-- `computer_move` (src/main.py:415): pick empty cells at random, rejecting
any whose hypothetical group (as player 2, without resolving opponent
captures) has zero liberties, until the empty list is exhausted. -/
def computer_move (stones : Board) (grid_lines : ℤ) (pick : List Cell → ℕ) :
    Option Cell :=
  computer_move_aux stones grid_lines pick
    (empty_cells stones grid_lines).length (empty_cells stones grid_lines)

/-- Outcome of the human click branch of the game loop. -/
structure ClickResult where
  stones : Board
  captured_black : ℕ
  captured_white : ℕ
  current_player : ℕ
  accepted : Bool

/-- The mouse-click move branch of `game` (src/main.py:488-499): place the
stone provisionally, run `valid_move`, and on empty liberties delete only the
just-placed stone, keeping tallies and the current player. -/
def handle_click (col row : ℤ) (stones : Board) (grid_lines : ℤ)
    (current_player : ℕ) (captured_black captured_white : ℕ) : ClickResult :=
  if in_bounds grid_lines (col, row) ∧ stones (col, row) = none then
    let s1 : Board := fun x => if x = (col, row) then some current_player else stones x
    let r := valid_move col row s1 grid_lines current_player captured_black captured_white
    if r.liberties = ∅ then
      ⟨fun x => if x = (col, row) then none else r.stones x,
       r.captured_black, r.captured_white, current_player, false⟩
    else
      ⟨r.stones, r.captured_black, r.captured_white, 3 - current_player, true⟩
  else ⟨stones, captured_black, captured_white, current_player, false⟩

/-- Game-loop state relevant to the computer's turn. -/
structure TurnState where
  stones : Board
  captured_black : ℕ
  captured_white : ℕ
  current_player : ℕ
  computer_tries : ℕ
  pass_count : ℕ

/-- The computer-turn branch of `game` (src/main.py:501-521): ask
`computer_move` for a cell; on a cell, place it, run `valid_move`, delete the
stone again if its liberties are empty, otherwise hand over the turn; on
`None`, count a retry, passing after the tenth. -/
def computer_turn (st : TurnState) (grid_lines : ℤ) (pick : List Cell → ℕ) :
    TurnState :=
  match computer_move st.stones grid_lines pick with
  | some m =>
    let s1 : Board := fun x => if x = m then some st.current_player else st.stones x
    let r := valid_move m.1 m.2 s1 grid_lines st.current_player
      st.captured_black st.captured_white
    if r.liberties = ∅ then
      { st with stones := fun x => if x = m then none else r.stones x,
                captured_black := r.captured_black,
                captured_white := r.captured_white,
                computer_tries := 0, pass_count := 0 }
    else
      { st with stones := r.stones,
                captured_black := r.captured_black,
                captured_white := r.captured_white,
                current_player := 3 - st.current_player,
                computer_tries := 0, pass_count := 0 }
  | none =>
    if st.computer_tries + 1 = 10 then
      { st with pass_count := st.pass_count + 1,
                current_player := 3 - st.current_player,
                computer_tries := 0 }
    else { st with computer_tries := st.computer_tries + 1 }

/-- Specification-side reachability: `b` lies in the same `player`-coloured
group as `a`, stepping through in-bounds neighbours carrying that colour. -/
def reaches (stones : Board) (grid_lines : ℤ) (player : ℕ) (a b : Cell) : Prop :=
  Relation.ReflTransGen
    (fun x y => y ∈ get_neighbours x.1 x.2 grid_lines ∧ stones y = some player) a b

/-- Specification-side reachability through empty cells (territory regions). -/
def empty_reaches (stones : Board) (grid_lines : ℤ) (a b : Cell) : Prop :=
  Relation.ReflTransGen
    (fun x y => y ∈ get_neighbours x.1 x.2 grid_lines ∧ stones y = none) a b

/-- The stone values bordering the empty region of `a`. -/
def region_borders (stones : Board) (grid_lines : ℤ) (a : Cell) : Set ℕ :=
  {v | ∃ x, empty_reaches stones grid_lines a x ∧
    ∃ n ∈ get_neighbours x.1 x.2 grid_lines, stones n = some v}

/-- The removal block contributed by one neighbour cell: the neighbour's
group if the neighbour is an opposing stone whose group has no liberties on
the given board, and empty otherwise. -/
def dblock (current_player : ℕ) (stones : Board) (grid_lines : ℤ)
    (n : Cell) : Finset Cell :=
  match stones n with
  | some q =>
    if q ≠ current_player ∧
        (get_group_and_liberties n.1 n.2 q stones grid_lines).2 = ∅ then
      (get_group_and_liberties n.1 n.2 q stones grid_lines).1
    else ∅
  | none => ∅

/-- The union of the removal blocks of a list of cells. -/
def deadU (current_player : ℕ) (stones : Board) (grid_lines : ℤ) :
    List Cell → Finset Cell
  | [] => ∅
  | n :: ns => dblock current_player stones grid_lines n ∪
      deadU current_player stones grid_lines ns

/-- The union over the neighbours of `(col, row)` of the groups that the
capture loop of `valid_move` qualifies for removal, all computed on the board
as it is when `valid_move` starts. -/
def dead_adjacent (col row : ℤ) (current_player : ℕ) (stones : Board)
    (grid_lines : ℤ) : Finset Cell :=
  deadU current_player stones grid_lines (get_neighbours col row grid_lines)

/-! ### Fixed boards and auxiliary notions used by specific claims -/

/-- The in-bounds cells of the board. -/
def board_cells (grid_lines : ℤ) : Finset Cell :=
  Finset.Ico 0 grid_lines ×ˢ Finset.Ico 0 grid_lines

/-- All cells the breadth-first search of `get_group_and_liberties` can ever
add to the group: the start cell plus the in-bounds stones of the player. -/
def bfs_univ (player : ℕ) (stones : Board) (grid_lines : ℤ) (start : Cell) :
    Finset Cell :=
  insert start ((board_cells grid_lines).filter fun c => stones c = some player)

/-- Loop invariant of the `while queue:` loop of `get_group_and_liberties`. -/
structure BfsInv (player : ℕ) (stones : Board) (grid_lines : ℤ) (start : Cell)
    (queue : List Cell) (group libs : Finset Cell) : Prop where
  group_reach : ∀ c ∈ group, reaches stones grid_lines player start c
  queue_reach : ∀ c ∈ queue, reaches stones grid_lines player start c
  queue_univ : ∀ c ∈ queue,
    c = start ∨ (in_bounds grid_lines c ∧ stones c = some player)
  closure : ∀ c ∈ group, ∀ n ∈ get_neighbours c.1 c.2 grid_lines,
    (stones n = some player → n ∈ group ∨ n ∈ queue) ∧
    (stones n = none → n ∉ group → n ∈ libs)
  libs_spec : ∀ n ∈ libs, stones n = none ∧ n ∉ group ∧
    ∃ c ∈ group, n ∈ get_neighbours c.1 c.2 grid_lines
  start_mem : start ∈ group ∨ (group = ∅ ∧ libs = ∅ ∧ queue = [start])

/-- What the search returns: the group is the reachability closure of the
start, the liberties are the empty cells next to it and outside it. -/
def bfs_post (player : ℕ) (stones : Board) (grid_lines : ℤ) (start : Cell)
    (r : Finset Cell × Finset Cell) : Prop :=
  (∀ c, c ∈ r.1 ↔ reaches stones grid_lines player start c) ∧
  (∀ n, n ∈ r.2 ↔ stones n = none ∧ n ∉ r.1 ∧
    ∃ c ∈ r.1, n ∈ get_neighbours c.1 c.2 grid_lines)

/-- Two black stones in the corner of a 3x3 board, for exercising C3. -/
def c3Board : Board := fun p => if p = (0, 0) ∨ p = (1, 0) then some 1 else none

/-- The 9x9 scenario-A board: a single black stone at (1, 1). -/
def c1Board : Board := fun p => if p = (1, 1) then some 1 else none

/-- A 2x2 board with white stones at (1, 0) and (0, 1): black at (0, 0) is a
suicide move that captures nothing. -/
def c2Board : Board := fun p => if p = (1, 0) ∨ p = (0, 1) then some 2 else none

/-- Witness state for C9: computer (player 2) to move on a 2x2 board where
black holds (0, 0). -/
def c9State : TurnState :=
  ⟨fun x => if x = (0, 0) then some 1 else none, 0, 0, 2, 0, 0⟩

/-- `D` is a union of complete opposing components that have no liberties on
the original board. -/
def GoodDead (p : ℕ) (stones : Board) (grid_lines : ℤ) (D : Finset Cell) :
    Prop :=
  ∀ x ∈ D, ∃ n0 : Cell, stones n0 = some (3 - p) ∧
    (get_group_and_liberties n0.1 n0.2 (3 - p) stones grid_lines).2 = ∅ ∧
    reaches stones grid_lines (3 - p) n0 x ∧
    ∀ y, reaches stones grid_lines (3 - p) n0 y → y ∈ D


/-- All cells the flood-fill of `find_region` can ever visit. -/
def region_univ (stones : Board) (grid_lines : ℤ) (start : Cell) :
    Finset Cell :=
  insert start ((board_cells grid_lines).filter fun c => stones c = none)

/-- Loop invariant of the `while queue:` loop of `find_region`. -/
structure RegionInv (stones : Board) (grid_lines : ℤ) (start : Cell)
    (V0 : Finset Cell) (queue : List Cell)
    (visited regions : Finset Cell) (nbrs : Finset ℕ) : Prop where
  vis_eq : visited = V0 ∪ regions
  regions_reach : ∀ c ∈ regions, empty_reaches stones grid_lines start c
  queue_reach : ∀ c ∈ queue, empty_reaches stones grid_lines start c ∧
    stones c = none ∧ (c = start ∨ in_bounds grid_lines c)
  closure : ∀ c ∈ regions, ∀ n ∈ get_neighbours c.1 c.2 grid_lines,
    (stones n = none → n ∈ regions ∨ n ∈ queue) ∧
    (∀ v, stones n = some v → v ∈ nbrs)
  nbrs_spec : ∀ v ∈ nbrs, ∃ c ∈ regions,
    ∃ n ∈ get_neighbours c.1 c.2 grid_lines, stones n = some v
  start_mem : start ∈ regions ∨
    (regions = ∅ ∧ nbrs = ∅ ∧ visited = V0 ∧ queue = [start])

/-- What `find_region` returns: updated visited set, the connected empty
region of the start, and the stone values bordering it. -/
def region_post (stones : Board) (grid_lines : ℤ) (start : Cell)
    (V0 : Finset Cell) (r : Finset Cell × Finset Cell × Finset ℕ) : Prop :=
  (∀ c, c ∈ r.2.1 ↔ empty_reaches stones grid_lines start c) ∧
  (∀ v, v ∈ r.2.2 ↔ ∃ x, empty_reaches stones grid_lines start x ∧
    ∃ n ∈ get_neighbours x.1 x.2 grid_lines, stones n = some v) ∧
  r.1 = V0 ∪ r.2.1


/-- The in-bounds empty cells. -/
def empty_finset (stones : Board) (grid_lines : ℤ) : Finset Cell :=
  (board_cells grid_lines).filter fun c => stones c = none

/-- The bordering stone values of a cell's empty region, computed by the
program's own flood-fill from a fresh visited set. -/
def border_finset (stones : Board) (grid_lines : ℤ) (c : Cell) : Finset ℕ :=
  (find_region stones grid_lines c ∅).2.2


/-! ### Basic facts about `get_neighbours` -/

theorem mem_get_neighbours {n : Cell} {col row grid_lines : ℤ} :
    n ∈ get_neighbours col row grid_lines ↔
      adjacent (col, row) n ∧ in_bounds grid_lines n := by
  obtain ⟨n1, n2⟩ := n
  simp only [get_neighbours, List.mem_filterMap, List.mem_cons,
    List.not_mem_nil, or_false]
  constructor
  · rintro ⟨d, hd, hif⟩
    split at hif
    · rename_i hin
      obtain ⟨rfl, rfl⟩ : col + d.1 = n1 ∧ row + d.2 = n2 := by
        have := Option.some_inj.mp hif
        exact ⟨congrArg Prod.fst this, congrArg Prod.snd this⟩
      refine ⟨?_, hin⟩
      rcases hd with rfl | rfl | rfl | rfl
      · simp [adjacent]
      · simp [adjacent]
      · simp [adjacent]
      · simp [adjacent]
    · simp at hif
  · rintro ⟨hadj, hin⟩
    simp only [adjacent] at hadj
    have h4 : (n1 = col - 1 ∧ n2 = row) ∨ (n1 = col + 1 ∧ n2 = row) ∨
        (n1 = col ∧ n2 = row - 1) ∨ (n1 = col ∧ n2 = row + 1) := by omega
    rcases h4 with ⟨rfl, rfl⟩ | ⟨rfl, rfl⟩ | ⟨rfl, rfl⟩ | ⟨rfl, rfl⟩
    · refine ⟨(-1, 0), by simp, ?_⟩
      have e : col + (-1 : ℤ) = col - 1 := by ring
      simp only [e, add_zero]
      rw [if_pos hin]
    · refine ⟨(1, 0), by simp, ?_⟩
      simp only [add_zero]
      rw [if_pos hin]
    · refine ⟨(0, -1), by simp, ?_⟩
      have e : row + (-1 : ℤ) = row - 1 := by ring
      simp only [e, add_zero]
      rw [if_pos hin]
    · refine ⟨(0, 1), by simp, ?_⟩
      simp only [add_zero]
      rw [if_pos hin]

theorem adjacent_symm {a b : Cell} (h : adjacent a b) : adjacent b a := by
  simp only [adjacent] at *; omega

theorem adjacent_irrefl (a : Cell) : ¬ adjacent a a := by
  simp [adjacent]

theorem self_not_mem_get_neighbours {col row grid_lines : ℤ} :
    ((col, row) : Cell) ∉ get_neighbours col row grid_lines := by
  intro h
  exact adjacent_irrefl _ (mem_get_neighbours.mp h).1

theorem in_bounds_of_mem_get_neighbours {n : Cell} {col row grid_lines : ℤ}
    (h : n ∈ get_neighbours col row grid_lines) : in_bounds grid_lines n :=
  (mem_get_neighbours.mp h).2

theorem length_get_neighbours_le (col row grid_lines : ℤ) :
    (get_neighbours col row grid_lines).length ≤ 4 :=
  le_trans (List.length_filterMap_le _ _) (by simp)

/-- Membership of `get_neighbours` is symmetric between in-bounds cells. -/
theorem mem_get_neighbours_symm {a b : Cell} {grid_lines : ℤ}
    (ha : in_bounds grid_lines a) (h : b ∈ get_neighbours a.1 a.2 grid_lines) :
    a ∈ get_neighbours b.1 b.2 grid_lines := by
  rw [mem_get_neighbours] at h ⊢
  exact ⟨adjacent_symm h.1, ha⟩

/-! ### The inner neighbour scan of `get_group_and_liberties` -/

theorem scan_neighbours_queue_mem (player : ℕ) (stones : Board)
    (group : Finset Cell) :
    ∀ (ns queue : List Cell) (libs : Finset Cell) (c : Cell),
      c ∈ (scan_neighbours player stones group ns queue libs).1 ↔
        c ∈ queue ∨ (c ∈ ns ∧ c ∉ group ∧ stones c = some player) := by
  intro ns
  induction ns with
  | nil => simp [scan_neighbours]
  | cons n ns ih =>
    intro queue libs c
    by_cases hg : n ∈ group
    · simp only [scan_neighbours, if_pos hg, ih, List.mem_cons]
      constructor
      · rintro (h | h)
        · exact Or.inl h
        · exact Or.inr ⟨Or.inr h.1, h.2⟩
      · rintro (h | ⟨(rfl | h), hng, hc⟩)
        · exact Or.inl h
        · exact absurd hg hng
        · exact Or.inr ⟨h, hng, hc⟩
    · rcases hs : stones n with _ | q
      · simp only [scan_neighbours, if_neg hg, hs, ih, List.mem_cons]
        constructor
        · rintro (h | h)
          · exact Or.inl h
          · exact Or.inr ⟨Or.inr h.1, h.2⟩
        · rintro (h | ⟨(rfl | h), hng, hc⟩)
          · exact Or.inl h
          · rw [hs] at hc; exact absurd hc (by simp)
          · exact Or.inr ⟨h, hng, hc⟩
      · by_cases hq : q = player
        · subst hq
          simp only [scan_neighbours, if_neg hg, hs, eq_self_iff_true, ite_true, ih,
            List.mem_append, List.mem_singleton, List.not_mem_nil, or_false,
            List.mem_cons]
          constructor
          · rintro ((h | rfl) | h)
            · exact Or.inl h
            · exact Or.inr ⟨Or.inl rfl, hg, hs⟩
            · exact Or.inr ⟨Or.inr h.1, h.2⟩
          · rintro (h | ⟨(rfl | h), hng, hc⟩)
            · exact Or.inl (Or.inl h)
            · exact Or.inl (Or.inr rfl)
            · exact Or.inr ⟨h, hng, hc⟩
        · simp only [scan_neighbours, if_neg hg, hs, if_neg hq, ih, List.mem_cons]
          constructor
          · rintro (h | h)
            · exact Or.inl h
            · exact Or.inr ⟨Or.inr h.1, h.2⟩
          · rintro (h | ⟨(rfl | h), hng, hc⟩)
            · exact Or.inl h
            · rw [hs] at hc
              exact absurd (Option.some_inj.mp hc) hq
            · exact Or.inr ⟨h, hng, hc⟩

theorem scan_neighbours_libs_mem (player : ℕ) (stones : Board)
    (group : Finset Cell) :
    ∀ (ns queue : List Cell) (libs : Finset Cell) (m : Cell),
      m ∈ (scan_neighbours player stones group ns queue libs).2 ↔
        m ∈ libs ∨ (m ∈ ns ∧ m ∉ group ∧ stones m = none) := by
  intro ns
  induction ns with
  | nil => simp [scan_neighbours]
  | cons n ns ih =>
    intro queue libs m
    by_cases hg : n ∈ group
    · simp only [scan_neighbours, if_pos hg, ih, List.mem_cons]
      constructor
      · rintro (h | h)
        · exact Or.inl h
        · exact Or.inr ⟨Or.inr h.1, h.2⟩
      · rintro (h | ⟨(rfl | h), hng, hc⟩)
        · exact Or.inl h
        · exact absurd hg hng
        · exact Or.inr ⟨h, hng, hc⟩
    · rcases hs : stones n with _ | q
      · simp only [scan_neighbours, if_neg hg, hs, ih, Finset.mem_insert,
          List.mem_cons]
        constructor
        · rintro ((rfl | h) | h)
          · exact Or.inr ⟨Or.inl rfl, hg, hs⟩
          · exact Or.inl h
          · exact Or.inr ⟨Or.inr h.1, h.2⟩
        · rintro (h | ⟨(rfl | h), hng, hc⟩)
          · exact Or.inl (Or.inr h)
          · exact Or.inl (Or.inl rfl)
          · exact Or.inr ⟨h, hng, hc⟩
      · by_cases hq : q = player
        · subst hq
          simp only [scan_neighbours, if_neg hg, hs, eq_self_iff_true, ite_true, ih, List.mem_cons]
          constructor
          · rintro (h | h)
            · exact Or.inl h
            · exact Or.inr ⟨Or.inr h.1, h.2⟩
          · rintro (h | ⟨(rfl | h), hng, hc⟩)
            · exact Or.inl h
            · rw [hs] at hc; exact absurd hc (by simp)
            · exact Or.inr ⟨h, hng, hc⟩
        · simp only [scan_neighbours, if_neg hg, hs, if_neg hq, ih, List.mem_cons]
          constructor
          · rintro (h | h)
            · exact Or.inl h
            · exact Or.inr ⟨Or.inr h.1, h.2⟩
          · rintro (h | ⟨(rfl | h), hng, hc⟩)
            · exact Or.inl h
            · rw [hs] at hc; exact absurd hc (by simp)
            · exact Or.inr ⟨h, hng, hc⟩

theorem scan_neighbours_queue_length (player : ℕ) (stones : Board)
    (group : Finset Cell) :
    ∀ (ns queue : List Cell) (libs : Finset Cell),
      (scan_neighbours player stones group ns queue libs).1.length ≤
        queue.length + ns.length := by
  intro ns
  induction ns with
  | nil => simp [scan_neighbours]
  | cons n ns ih =>
    intro queue libs
    by_cases hg : n ∈ group
    · simp only [scan_neighbours, if_pos hg, List.length_cons]
      exact le_trans (ih _ _) (by omega)
    · rcases hs : stones n with _ | q
      · simp only [scan_neighbours, if_neg hg, hs, List.length_cons]
        exact le_trans (ih _ _) (by omega)
      · by_cases hq : q = player
        · subst hq
          simp only [scan_neighbours, if_neg hg, hs, eq_self_iff_true, ite_true, List.length_cons]
          exact le_trans (ih _ _) (by simp; omega)
        · simp only [scan_neighbours, if_neg hg, hs, if_neg hq, List.length_cons]
          exact le_trans (ih _ _) (by omega)

/-! ### Correctness of the breadth-first group search -/

theorem mem_board_cells {grid_lines : ℤ} {c : Cell} :
    c ∈ board_cells grid_lines ↔ in_bounds grid_lines c := by
  obtain ⟨c1, c2⟩ := c
  simp only [board_cells, Finset.mem_product, Finset.mem_Ico, in_bounds]
  tauto

theorem card_bfs_univ_le (player : ℕ) (stones : Board) (grid_lines : ℤ)
    (start : Cell) :
    (bfs_univ player stones grid_lines start).card ≤
      grid_lines.toNat * grid_lines.toNat + 1 := by
  refine le_trans (Finset.card_insert_le _ _) ?_
  have h1 := Finset.card_filter_le (board_cells grid_lines)
    (fun c => stones c = some player)
  have h2 : (board_cells grid_lines).card =
      grid_lines.toNat * grid_lines.toNat := by
    simp [board_cells, Int.card_Ico]
  omega

theorem bfs_inv_final {player : ℕ} {stones : Board} {grid_lines : ℤ}
    {start : Cell} {group libs : Finset Cell}
    (h : BfsInv player stones grid_lines start [] group libs) :
    bfs_post player stones grid_lines start (group, libs) := by
  have hmem : ∀ c, c ∈ group ↔ reaches stones grid_lines player start c := by
    intro c
    constructor
    · exact fun hc => h.group_reach c hc
    · intro hr
      induction hr with
      | refl =>
        rcases h.start_mem with hs | ⟨_, _, habs⟩
        · exact hs
        · simp at habs
      | tail hab hbc ih =>
        rcases hbc with ⟨hnb, hcol⟩
        rcases (h.closure _ ih _ hnb).1 hcol with hg | hq
        · exact hg
        · simp at hq
  refine ⟨hmem, fun n => ?_⟩
  constructor
  · intro hn
    obtain ⟨he, hng, c, hc, hnb⟩ := h.libs_spec n hn
    exact ⟨he, hng, c, hc, hnb⟩
  · rintro ⟨he, hng, c, hc, hnb⟩
    exact (h.closure c hc n hnb).2 he hng

theorem ggl_aux_post (player : ℕ) (stones : Board) (grid_lines : ℤ)
    (start : Cell) :
    ∀ (fuel : ℕ) (queue : List Cell) (group libs : Finset Cell),
      BfsInv player stones grid_lines start queue group libs →
      4 * ((bfs_univ player stones grid_lines start) \ group).card +
        queue.length ≤ fuel →
      bfs_post player stones grid_lines start
        (ggl_aux player stones grid_lines fuel queue group libs) := by
  intro fuel
  induction fuel with
  | zero =>
    intro queue group libs hinv hm
    have hq : queue = [] := by
      cases queue with
      | nil => rfl
      | cons a l => simp at hm
    subst hq
    simpa [ggl_aux] using bfs_inv_final hinv
  | succ fuel ih =>
    intro queue group libs hinv hm
    cases queue with
    | nil => simpa [ggl_aux] using bfs_inv_final hinv
    | cons c rest =>
      by_cases hc : c ∈ group
      · rw [show ggl_aux player stones grid_lines (fuel + 1) (c :: rest) group libs
            = ggl_aux player stones grid_lines fuel rest group libs by
          simp [ggl_aux, if_pos hc]]
        refine ih rest group libs ?_ ?_
        · refine ⟨hinv.group_reach, ?_, ?_, ?_, hinv.libs_spec, ?_⟩
          · exact fun x hx => hinv.queue_reach x (List.mem_cons_of_mem _ hx)
          · exact fun x hx => hinv.queue_univ x (List.mem_cons_of_mem _ hx)
          · intro c0 hc0 n hnb
            refine ⟨fun hcol => ?_, (hinv.closure c0 hc0 n hnb).2⟩
            rcases (hinv.closure c0 hc0 n hnb).1 hcol with hg | hq
            · exact Or.inl hg
            · rcases List.mem_cons.mp hq with rfl | hq'
              · exact Or.inl hc
              · exact Or.inr hq'
          · rcases hinv.start_mem with hs | ⟨hg, _, _⟩
            · exact Or.inl hs
            · rw [hg] at hc; simp at hc
        · simp only [List.length_cons] at hm
          omega
      · rw [show ggl_aux player stones grid_lines (fuel + 1) (c :: rest) group libs
            = ggl_aux player stones grid_lines fuel
                (scan_neighbours player stones (insert c group)
                  (get_neighbours c.1 c.2 grid_lines) rest libs).1
                (insert c group)
                (scan_neighbours player stones (insert c group)
                  (get_neighbours c.1 c.2 grid_lines) rest libs).2 by
          simp [ggl_aux, if_neg hc]]
        have hrc : reaches stones grid_lines player start c :=
          hinv.queue_reach c (List.mem_cons_self _ _)
        have hcu := hinv.queue_univ c (List.mem_cons_self _ _)
        refine ih _ _ _ ?_ ?_
        · constructor
          · intro x hx
            rcases Finset.mem_insert.mp hx with rfl | hx'
            · exact hrc
            · exact hinv.group_reach x hx'
          · intro x hx
            rcases (scan_neighbours_queue_mem _ _ _ _ _ _ _).mp hx with
              hx' | ⟨hnb, _, hcol⟩
            · exact hinv.queue_reach x (List.mem_cons_of_mem _ hx')
            · exact Relation.ReflTransGen.tail hrc ⟨hnb, hcol⟩
          · intro x hx
            rcases (scan_neighbours_queue_mem _ _ _ _ _ _ _).mp hx with
              hx' | ⟨hnb, _, hcol⟩
            · exact hinv.queue_univ x (List.mem_cons_of_mem _ hx')
            · exact Or.inr ⟨in_bounds_of_mem_get_neighbours hnb, hcol⟩
          · intro c0 hc0 n hnb
            rcases Finset.mem_insert.mp hc0 with rfl | hc0'
            · constructor
              · intro hcol
                by_cases hng : n ∈ insert c0 group
                · exact Or.inl hng
                · exact Or.inr ((scan_neighbours_queue_mem _ _ _ _ _ _ _).mpr
                    (Or.inr ⟨hnb, hng, hcol⟩))
              · intro he hng
                exact (scan_neighbours_libs_mem _ _ _ _ _ _ _).mpr
                  (Or.inr ⟨hnb, hng, he⟩)
            · constructor
              · intro hcol
                rcases (hinv.closure c0 hc0' n hnb).1 hcol with hg | hq
                · exact Or.inl (Finset.mem_insert_of_mem hg)
                · rcases List.mem_cons.mp hq with rfl | hq'
                  · exact Or.inl (Finset.mem_insert_self _ _)
                  · exact Or.inr ((scan_neighbours_queue_mem _ _ _ _ _ _ _).mpr
                      (Or.inl hq'))
              · intro he hng
                have hng' : n ∉ group := fun h =>
                  hng (Finset.mem_insert_of_mem h)
                exact (scan_neighbours_libs_mem _ _ _ _ _ _ _).mpr
                  (Or.inl ((hinv.closure c0 hc0' n hnb).2 he hng'))
          · intro x hx
            rcases (scan_neighbours_libs_mem _ _ _ _ _ _ _).mp hx with
              hx' | ⟨hnb, hng, he⟩
            · obtain ⟨he, hng, c1, hc1, hnb1⟩ := hinv.libs_spec x hx'
              have hxc : x ≠ c := by
                rcases hcu with rfl | ⟨_, hcol⟩
                · rcases hinv.start_mem with hs | ⟨hg, hl, _⟩
                  · exact absurd hs hc
                  · rw [hl] at hx'; simp at hx'
                · intro h
                  rw [h, hcol] at he
                  simp at he
              refine ⟨he, ?_, c1, Finset.mem_insert_of_mem hc1, hnb1⟩
              intro h
              rcases Finset.mem_insert.mp h with rfl | h'
              · exact hxc rfl
              · exact hng h'
            · exact ⟨he, hng, c, Finset.mem_insert_self _ _, hnb⟩
          · rcases hinv.start_mem with hs | ⟨_, _, hq⟩
            · exact Or.inl (Finset.mem_insert_of_mem hs)
            · have : c = start := by
                have := congrArg (fun l => l.head?) hq
                simpa using this
              exact Or.inl (this ▸ Finset.mem_insert_self _ _)
        · have hcuniv : c ∈ bfs_univ player stones grid_lines start := by
            rcases hcu with rfl | ⟨hb, hcol⟩
            · exact Finset.mem_insert_self _ _
            · exact Finset.mem_insert_of_mem
                (Finset.mem_filter.mpr ⟨mem_board_cells.mpr hb, hcol⟩)
          have hcd : c ∈ bfs_univ player stones grid_lines start \ group :=
            Finset.mem_sdiff.mpr ⟨hcuniv, hc⟩
          have hcard : (bfs_univ player stones grid_lines start \
              insert c group).card =
              (bfs_univ player stones grid_lines start \ group).card - 1 := by
            rw [Finset.sdiff_insert, Finset.card_erase_of_mem hcd]
          have hpos : 1 ≤ (bfs_univ player stones grid_lines start \
              group).card := Finset.card_pos.mpr ⟨c, hcd⟩ 
          have hlen := scan_neighbours_queue_length player stones
            (insert c group) (get_neighbours c.1 c.2 grid_lines) rest libs
          have hnb4 := length_get_neighbours_le c.1 c.2 grid_lines
          simp only [List.length_cons] at hm
          omega

theorem ggl_group_mem (col row : ℤ) (player : ℕ) (stones : Board)
    (grid_lines : ℤ) (c : Cell) :
    c ∈ (get_group_and_liberties col row player stones grid_lines).1 ↔
      reaches stones grid_lines player (col, row) c := by
  have hpost := ggl_aux_post player stones grid_lines (col, row)
    (4 * (grid_lines.toNat * grid_lines.toNat) + 5) [(col, row)] ∅ ∅
    ⟨by simp, by
      intro x hx
      simp only [List.mem_singleton] at hx
      subst hx
      exact Relation.ReflTransGen.refl, by simp, by simp, by simp,
      Or.inr ⟨rfl, rfl, rfl⟩⟩
    (by
      have := card_bfs_univ_le player stones grid_lines (col, row)
      simp only [Finset.sdiff_empty, List.length_singleton]
      omega)
  exact hpost.1 c

theorem ggl_libs_mem (col row : ℤ) (player : ℕ) (stones : Board)
    (grid_lines : ℤ) (n : Cell) :
    n ∈ (get_group_and_liberties col row player stones grid_lines).2 ↔
      stones n = none ∧ ¬ reaches stones grid_lines player (col, row) n ∧
      ∃ c, reaches stones grid_lines player (col, row) c ∧
        n ∈ get_neighbours c.1 c.2 grid_lines := by
  have hpost := ggl_aux_post player stones grid_lines (col, row)
    (4 * (grid_lines.toNat * grid_lines.toNat) + 5) [(col, row)] ∅ ∅
    ⟨by simp, by
      intro x hx
      simp only [List.mem_singleton] at hx
      subst hx
      exact Relation.ReflTransGen.refl, by simp, by simp, by simp,
      Or.inr ⟨rfl, rfl, rfl⟩⟩
    (by
      have := card_bfs_univ_le player stones grid_lines (col, row)
      simp only [Finset.sdiff_empty, List.length_singleton]
      omega)
  rw [show (get_group_and_liberties col row player stones grid_lines).2
      = (ggl_aux player stones grid_lines
          (4 * (grid_lines.toNat * grid_lines.toNat) + 5) [(col, row)] ∅ ∅).2
    from rfl, hpost.2 n]
  constructor
  · rintro ⟨he, hng, c, hc, hnb⟩
    exact ⟨he, fun hr => hng ((hpost.1 n).mpr hr),
      c, (hpost.1 c).mp hc, hnb⟩
  · rintro ⟨he, hnr, c, hr, hnb⟩
    exact ⟨he, fun hg => hnr ((hpost.1 n).mp hg),
      c, (hpost.1 c).mpr hr, hnb⟩

/-! ### The start cell's own occupancy is never inspected -/

theorem ggl_aux_cons (player : ℕ) (stones : Board) (grid_lines : ℤ)
    (fuel : ℕ) (c : Cell) (queue : List Cell) (group libs : Finset Cell) :
    ggl_aux player stones grid_lines (fuel + 1) (c :: queue) group libs =
      if c ∈ group then ggl_aux player stones grid_lines fuel queue group libs
      else
        ggl_aux player stones grid_lines fuel
          (scan_neighbours player stones (insert c group)
            (get_neighbours c.1 c.2 grid_lines) queue libs).1
          (insert c group)
          (scan_neighbours player stones (insert c group)
            (get_neighbours c.1 c.2 grid_lines) queue libs).2 := rfl

theorem scan_neighbours_congr {player : ℕ} {s1 s2 : Board}
    {group : Finset Cell} :
    ∀ (ns queue : List Cell) (libs : Finset Cell),
      (∀ n ∈ ns, n ∉ group → s1 n = s2 n) →
      scan_neighbours player s1 group ns queue libs =
        scan_neighbours player s2 group ns queue libs := by
  intro ns
  induction ns with
  | nil => intro queue libs _; rfl
  | cons n ns ih =>
    intro queue libs hagree
    by_cases hg : n ∈ group
    · simp only [scan_neighbours, if_pos hg]
      exact ih _ _ fun m hm => hagree m (List.mem_cons_of_mem _ hm)
    · have he : s1 n = s2 n := hagree n (List.mem_cons_self _ _) hg
      simp only [scan_neighbours, if_neg hg, ← he]
      cases s1 n with
      | none => exact ih _ _ fun m hm => hagree m (List.mem_cons_of_mem _ hm)
      | some q =>
        by_cases hq : q = player
        · simp only [if_pos hq]
          exact ih _ _ fun m hm => hagree m (List.mem_cons_of_mem _ hm)
        · simp only [if_neg hq]
          exact ih _ _ fun m hm => hagree m (List.mem_cons_of_mem _ hm)

theorem ggl_aux_congr_update {player : ℕ} {stones : Board} {grid_lines : ℤ}
    {start : Cell} :
    ∀ (fuel : ℕ) (queue : List Cell) (group libs : Finset Cell),
      start ∈ group →
      ggl_aux player stones grid_lines fuel queue group libs =
        ggl_aux player (fun x => if x = start then some player else stones x)
          grid_lines fuel queue group libs := by
  intro fuel
  induction fuel with
  | zero => intro queue group libs _; rfl
  | succ fuel ih =>
    intro queue group libs hstart
    cases queue with
    | nil => rfl
    | cons c rest =>
      rw [ggl_aux_cons, ggl_aux_cons]
      by_cases hc : c ∈ group
      · rw [if_pos hc, if_pos hc]
        exact ih _ _ _ hstart
      · rw [if_neg hc, if_neg hc]
        have hscan : scan_neighbours player stones (insert c group)
            (get_neighbours c.1 c.2 grid_lines) rest libs =
          scan_neighbours player
            (fun x => if x = start then some player else stones x)
            (insert c group) (get_neighbours c.1 c.2 grid_lines) rest libs := by
          refine scan_neighbours_congr _ _ _ fun n _ hn => ?_
          have hne : n ≠ start := fun h =>
            hn (h ▸ Finset.mem_insert_of_mem hstart)
          simp [hne]
        rw [← hscan]
        exact ih _ _ _ (Finset.mem_insert_of_mem hstart)

/-- Writing the provisional stone at the start cell before running the search
does not change the result: the search adds the start cell to the group first
and never queries its occupancy afterwards. -/
theorem ggl_update_start (col row : ℤ) (player : ℕ) (stones : Board)
    (grid_lines : ℤ) :
    get_group_and_liberties col row player stones grid_lines =
      get_group_and_liberties col row player
        (fun x => if x = (col, row) then some player else stones x)
        grid_lines := by
  have hK : 4 * (grid_lines.toNat * grid_lines.toNat) + 5 =
      (4 * (grid_lines.toNat * grid_lines.toNat) + 4) + 1 := by omega
  simp only [get_group_and_liberties, hK]
  rw [ggl_aux_cons, ggl_aux_cons]
  simp only [Finset.not_mem_empty, if_neg (fun h => h : ¬ False)]
  have hscan : scan_neighbours player stones (insert ((col, row) : Cell) ∅)
      (get_neighbours col row grid_lines) [] ∅ =
    scan_neighbours player
      (fun x => if x = ((col, row) : Cell) then some player else stones x)
      (insert ((col, row) : Cell) ∅) (get_neighbours col row grid_lines) [] ∅ := by
    refine scan_neighbours_congr _ _ _ fun n _ hn => ?_
    have hne : n ≠ ((col, row) : Cell) := fun h => hn (by simp [h])
    simp [hne]
  rw [← hscan]
  exact ggl_aux_congr_update _ _ _ _ (Finset.mem_insert_self _ _)

/-! ### Translating search reachability to mathematical adjacency -/

/-- Every cell the search reaches beyond the start carries the colour. -/
theorem reaches_colour {stones : Board} {grid_lines : ℤ} {player : ℕ}
    {s c : Cell} (h : reaches stones grid_lines player s c) :
    c = s ∨ stones c = some player := by
  rcases Relation.ReflTransGen.cases_tail h with h' | ⟨b, _, hstep⟩
  · exact Or.inl h'
  · exact Or.inr hstep.2

theorem reaches_iff_adjacent_chain {stones : Board} {grid_lines : ℤ}
    {player : ℕ} {s c : Cell}
    (hb : ∀ c v, stones c = some v → in_bounds grid_lines c) :
    reaches stones grid_lines player s c ↔
      Relation.ReflTransGen
        (fun a b => adjacent a b ∧ stones b = some player) s c := by
  constructor
  · refine Relation.ReflTransGen.mono fun a b hab => ?_
    exact ⟨by
      have := (mem_get_neighbours.mp hab.1).1
      simpa using this, hab.2⟩
  · refine Relation.ReflTransGen.mono fun a b hab => ?_
    refine ⟨?_, hab.2⟩
    rw [mem_get_neighbours]
    exact ⟨by simpa using hab.1, hb b player hab.2⟩

/-! ### Claims C3 and C10 -/

/-- C3: for every in-bounds board, colour, and start cell occupied by that
colour, `get_group_and_liberties` returns as group exactly the maximal
4-connected same-colour component of the start cell, as liberties exactly the
set of in-bounds empty cells orthogonally adjacent to some cell of that
component, and the liberties are disjoint from the group and from all
occupied cells. -/
theorem ggl_component_correct
    (col row : ℤ) (player : ℕ) (stones : Board) (grid_lines : ℤ)
    (hb : ∀ c v, stones c = some v → in_bounds grid_lines c)
    (hstart : stones (col, row) = some player) :
    (∀ c, c ∈ (get_group_and_liberties col row player stones grid_lines).1 ↔
      Relation.ReflTransGen
        (fun a b => adjacent a b ∧ stones b = some player) (col, row) c) ∧
    (∀ n, n ∈ (get_group_and_liberties col row player stones grid_lines).2 ↔
      stones n = none ∧ in_bounds grid_lines n ∧
      ∃ c ∈ (get_group_and_liberties col row player stones grid_lines).1,
        adjacent c n) ∧
    (∀ n ∈ (get_group_and_liberties col row player stones grid_lines).2,
      n ∉ (get_group_and_liberties col row player stones grid_lines).1 ∧
      stones n = none) := by
  refine ⟨?_, ?_, ?_⟩
  · intro c
    rw [ggl_group_mem, reaches_iff_adjacent_chain hb]
  · intro n
    rw [ggl_libs_mem]
    constructor
    · rintro ⟨he, hnr, c, hr, hnb⟩
      rcases mem_get_neighbours.mp hnb with ⟨hadj, hin⟩
      exact ⟨he, hin, c, (ggl_group_mem _ _ _ _ _ _).mpr hr, by simpa using hadj⟩
    · rintro ⟨he, hin, c, hc, hadj⟩
      have hr := (ggl_group_mem _ _ _ _ _ _).mp hc
      refine ⟨he, ?_, c, hr, ?_⟩
      · intro hrn
        rcases reaches_colour hrn with rfl | hcol
        · rw [hstart] at he; simp at he
        · rw [hcol] at he; simp at he
      · rw [mem_get_neighbours]
        exact ⟨by simpa using hadj, hin⟩
  · intro n hn
    rcases (ggl_libs_mem _ _ _ _ _ _).mp hn with ⟨he, hnr, _⟩
    exact ⟨fun hg => hnr ((ggl_group_mem _ _ _ _ _ _).mp hg), he⟩

theorem c3Board_bounds : ∀ c v, c3Board c = some v → in_bounds 3 c := by
  intro c v h
  simp only [c3Board] at h
  split at h
  · rename_i h1
    rcases h1 with rfl | rfl
    · decide
    · decide
  · simp at h


/-- Witness for C3 at a concrete board. -/
theorem ggl_component_correct_witness :
    (∀ c v, c3Board c = some v → in_bounds 3 c) ∧
    c3Board (0, 0) = some 1 ∧
    ((∀ c, c ∈ (get_group_and_liberties 0 0 1 c3Board 3).1 ↔
      Relation.ReflTransGen
        (fun a b => adjacent a b ∧ c3Board b = some 1) (0, 0) c) ∧
    (∀ n, n ∈ (get_group_and_liberties 0 0 1 c3Board 3).2 ↔
      c3Board n = none ∧ in_bounds 3 n ∧
      ∃ c ∈ (get_group_and_liberties 0 0 1 c3Board 3).1, adjacent c n) ∧
    (∀ n ∈ (get_group_and_liberties 0 0 1 c3Board 3).2,
      n ∉ (get_group_and_liberties 0 0 1 c3Board 3).1 ∧ c3Board n = none)) :=
  ⟨c3Board_bounds, rfl,
    ggl_component_correct 0 0 1 c3Board 3 c3Board_bounds rfl⟩

/-- C10: for an empty start cell, running the analyzer on the untouched board
and on the board with the hypothetical stone written at the start yields the
same group and liberties; the start cell is in the group and never among the
liberties. -/
theorem ggl_hypothetical_placement_equiv
    (col row : ℤ) (player : ℕ) (stones : Board) (grid_lines : ℤ)
    (h : stones (col, row) = none) :
    get_group_and_liberties col row player stones grid_lines =
      get_group_and_liberties col row player
        (fun x => if x = (col, row) then some player else stones x)
        grid_lines ∧
    ((col, row) : Cell) ∈
      (get_group_and_liberties col row player stones grid_lines).1 ∧
    ((col, row) : Cell) ∉
      (get_group_and_liberties col row player stones grid_lines).2 := by
  refine ⟨ggl_update_start _ _ _ _ _, ?_, ?_⟩
  · exact (ggl_group_mem _ _ _ _ _ _).mpr Relation.ReflTransGen.refl
  · intro hmem
    rcases (ggl_libs_mem _ _ _ _ _ _).mp hmem with ⟨_, hnr, _⟩
    exact hnr Relation.ReflTransGen.refl

/-- Witness for C10 on the empty 9x9 board at cell (4, 4). -/
theorem ggl_hypothetical_placement_equiv_witness :
    ((fun _ => none : Board) (4, 4) = none) ∧
    (get_group_and_liberties 4 4 2 (fun _ => none) 9 =
      get_group_and_liberties 4 4 2
        (fun x => if x = (4, 4) then some 2 else (fun _ => none : Board) x) 9 ∧
    ((4, 4) : Cell) ∈ (get_group_and_liberties 4 4 2 (fun _ => none) 9).1 ∧
    ((4, 4) : Cell) ∉ (get_group_and_liberties 4 4 2 (fun _ => none) 9).2) :=
  ⟨rfl, ggl_hypothetical_placement_equiv 4 4 2 (fun _ => none) 9 rfl⟩

/-! ### Claim C1: scoring the lone-stone 9x9 board -/

theorem c1_fold_black :
    (List.foldl (score_step c1Board 9) (∅, 0, 0) (all_cells_list 9)).2.1
      = 80 := by decide

theorem c1_fold_white :
    (List.foldl (score_step c1Board 9) (∅, 0, 0) (all_cells_list 9)).2.2
      = 0 := by decide

/-- C1 (counterexample): on the 9x9 board with a single black stone at (1, 1)
and zero tallies, `calculate_score` does not return (0, 7.5): the lone empty
region is bordered by black only, so black receives the whole 80 cells of
territory. -/
theorem calculate_score_lone_stone_counterexample :
    calculate_score c1Board 9 0 0 ≠ ((0 : ℚ), (7.5 : ℚ)) := by
  intro heq
  have h : (calculate_score c1Board 9 0 0).1 = ((80 : ℕ) : ℚ) + ((0 : ℕ) : ℚ) := by
    simp only [calculate_score, c1_fold_black]
  rw [heq] at h
  norm_num at h

/-- C1 (amended): on the 9x9 board with a single black stone at (1, 1) and
zero tallies, `calculate_score` returns black score 80 (all 80 empty cells
form one region bordered only by black) and white score 0 + 0 + 7.5 = 7.5. -/
theorem calculate_score_lone_stone :
    calculate_score c1Board 9 0 0 = ((80 : ℚ), (7.5 : ℚ)) := by
  have h : calculate_score c1Board 9 0 0 =
      (((80 : ℕ) : ℚ) + ((0 : ℕ) : ℚ),
        ((0 : ℕ) : ℚ) + ((0 : ℕ) : ℚ) + 7.5) := by
    simp only [calculate_score, c1_fold_black, c1_fold_white]
  rw [h]
  norm_num

/-! ### Claim C6: the final score combination -/

/-- C6: the capture tallies enter `calculate_score` additively and crosswise:
black's score adds the captured-white count to black's territory, white's
score adds the captured-black count to white's territory plus the fixed komi
7.5.  The territory pair is whatever the flood-fill computes and does not
depend on the tallies. -/
theorem calculate_score_capture_pairing (stones : Board) (grid_lines : ℤ)
    (captured_black captured_white : ℕ) :
    calculate_score stones grid_lines captured_black captured_white =
      ((calculate_score stones grid_lines 0 0).1 + captured_white,
       (calculate_score stones grid_lines 0 0).2 + captured_black) ∧
    ∃ tb tw : ℕ,
      calculate_score stones grid_lines captured_black captured_white =
        ((tb : ℚ) + captured_white, (tw : ℚ) + captured_black + 7.5) := by
  constructor
  · refine Prod.ext ?_ ?_
    · simp only [calculate_score]
      push_cast
      ring
    · simp only [calculate_score]
      push_cast
      ring
  · refine ⟨(List.foldl (score_step stones grid_lines) (∅, 0, 0)
        (all_cells_list grid_lines)).2.1,
      (List.foldl (score_step stones grid_lines) (∅, 0, 0)
        (all_cells_list grid_lines)).2.2, ?_⟩
    simp only [calculate_score]

/-! ### Accounting of capture resolution (claims C2, C7) -/

theorem resolve_captures_cons (current_player : ℕ) (grid_lines : ℤ)
    (n : Cell) (ns : List Cell) (stones : Board) (cb cw : ℕ) :
    resolve_captures current_player grid_lines (n :: ns) stones cb cw =
      match stones n with
      | some q =>
        if q = current_player then
          resolve_captures current_player grid_lines ns stones cb cw
        else
          if (get_group_and_liberties n.1 n.2 q stones grid_lines).2 = ∅ then
            resolve_captures current_player grid_lines ns
              (remove_group (get_group_and_liberties n.1 n.2 q stones grid_lines).1
                stones cb cw).1
              (remove_group (get_group_and_liberties n.1 n.2 q stones grid_lines).1
                stones cb cw).2.1
              (remove_group (get_group_and_liberties n.1 n.2 q stones grid_lines).1
                stones cb cw).2.2
          else resolve_captures current_player grid_lines ns stones cb cw
      | none => resolve_captures current_player grid_lines ns stones cb cw := rfl

/-- Every cell of a group returned by the analyzer for an occupied start cell
is occupied, with the analyzed colour. -/
theorem ggl_group_occupied {col row : ℤ} {q : ℕ} {stones : Board}
    {grid_lines : ℤ} (hs : stones (col, row) = some q) :
    ∀ x ∈ (get_group_and_liberties col row q stones grid_lines).1,
      stones x = some q := by
  intro x hx
  rcases reaches_colour ((ggl_group_mem _ _ _ _ _ _).mp hx) with rfl | hcol
  · exact hs
  · exact hcol

/-- The capture loop of `valid_move` removes some finite set of cells, all of
them occupied by a colour other than the mover's, and adds to each tally the
number of removed cells of the matching colour. -/
theorem resolve_captures_accounting (current_player : ℕ) (grid_lines : ℤ) :
    ∀ (L : List Cell) (stones : Board) (cb cw : ℕ),
      ∃ R : Finset Cell,
        (∀ x ∈ R, ∃ v, stones x = some v ∧ v ≠ current_player) ∧
        (∀ x, (resolve_captures current_player grid_lines L stones cb cw).1 x =
          if x ∈ R then none else stones x) ∧
        ((resolve_captures current_player grid_lines L stones cb cw).2.1 =
          cb + (R.filter fun x => stones x = some 1).card) ∧
        ((resolve_captures current_player grid_lines L stones cb cw).2.2 =
          cw + (R.filter fun x => stones x = some 2).card) := by
  intro L
  induction L with
  | nil =>
    intro stones cb cw
    exact ⟨∅, by simp, by simp [resolve_captures], by simp [resolve_captures],
      by simp [resolve_captures]⟩
  | cons n ns ih =>
    intro stones cb cw
    rcases hs : stones n with _ | q
    · obtain ⟨R, hR1, hR2, hR3, hR4⟩ := ih stones cb cw
      simp only [resolve_captures_cons, hs]
      exact ⟨R, hR1, hR2, hR3, hR4⟩
    · by_cases hq : q = current_player
      · obtain ⟨R, hR1, hR2, hR3, hR4⟩ := ih stones cb cw
        simp only [resolve_captures_cons, hs]
        rw [if_pos hq]
        exact ⟨R, hR1, hR2, hR3, hR4⟩
      · by_cases hgl : (get_group_and_liberties n.1 n.2 q stones grid_lines).2 = ∅
        · set G := (get_group_and_liberties n.1 n.2 q stones grid_lines).1 with hG
          have hGocc : ∀ x ∈ G, stones x = some q := by
            have : stones (n.1, n.2) = some q := by
              rwa [show ((n.1, n.2) : Cell) = n from rfl]
            exact ggl_group_occupied this
          obtain ⟨R', hR1, hR2, hR3, hR4⟩ := ih
            (remove_group G stones cb cw).1
            (remove_group G stones cb cw).2.1
            (remove_group G stones cb cw).2.2
          have hRG : ∀ x ∈ R', x ∉ G ∧
              (remove_group G stones cb cw).1 x = stones x := by
            intro x hx
            obtain ⟨v, hv, _⟩ := hR1 x hx
            simp only [remove_group] at hv
            by_cases hxG : x ∈ G
            · rw [if_pos hxG] at hv; simp at hv
            · rw [if_neg hxG] at hv
              exact ⟨hxG, by simp [remove_group, if_neg hxG]⟩
          have hdisj : Disjoint G R' := by
            rw [Finset.disjoint_right]
            intro x hx
            exact (hRG x hx).1
          simp only [resolve_captures_cons, hs]
          rw [if_neg hq, if_pos hgl]
          refine ⟨G ∪ R', ?_, ?_, ?_, ?_⟩
          · intro x hx
            rcases Finset.mem_union.mp hx with hxG | hxR
            · exact ⟨q, hGocc x hxG, hq⟩
            · obtain ⟨v, hv, hvp⟩ := hR1 x hxR
              rw [(hRG x hxR).2] at hv
              exact ⟨v, hv, hvp⟩
          · intro x
            rw [hR2 x]
            by_cases hxR : x ∈ R'
            · rw [if_pos hxR, if_pos (Finset.mem_union_right _ hxR)]
            · rw [if_neg hxR]
              simp only [remove_group]
              by_cases hxG : x ∈ G
              · rw [if_pos hxG, if_pos (Finset.mem_union_left _ hxG)]
              · rw [if_neg hxG, if_neg (by
                  intro hmem
                  rcases Finset.mem_union.mp hmem with h | h
                  · exact hxG h
                  · exact hxR h)]
          · rw [hR3]
            have hfilt : R'.filter (fun x =>
                (remove_group G stones cb cw).1 x = some 1) =
                R'.filter (fun x => stones x = some 1) := by
              refine Finset.filter_congr ?_
              intro x hx
              rw [(hRG x hx).2]
            rw [hfilt]
            simp only [remove_group]
            rw [Finset.filter_union,
              Finset.card_union_of_disjoint
                (Finset.disjoint_filter_filter hdisj)]
            omega
          · rw [hR4]
            have hfilt : R'.filter (fun x =>
                (remove_group G stones cb cw).1 x = some 2) =
                R'.filter (fun x => stones x = some 2) := by
              refine Finset.filter_congr ?_
              intro x hx
              rw [(hRG x hx).2]
            rw [hfilt]
            simp only [remove_group]
            rw [Finset.filter_union,
              Finset.card_union_of_disjoint
                (Finset.disjoint_filter_filter hdisj)]
            omega
        · obtain ⟨R, hR1, hR2, hR3, hR4⟩ := ih stones cb cw
          simp only [resolve_captures_cons, hs]
          rw [if_neg hq, if_neg hgl]
          exact ⟨R, hR1, hR2, hR3, hR4⟩

/-- C7: over a `valid_move` capture resolution the tallies never decrease,
and each tally's increment is exactly the number of cells removed from the
board that held a stone of the corresponding colour. -/
theorem valid_move_tally_accounting (col row : ℤ) (stones : Board)
    (grid_lines : ℤ) (current_player : ℕ) (cb cw : ℕ) :
    cb ≤ (valid_move col row stones grid_lines current_player cb cw).captured_black ∧
    cw ≤ (valid_move col row stones grid_lines current_player cb cw).captured_white ∧
    ∃ R : Finset Cell,
      (∀ x ∈ R, stones x ≠ none) ∧
      (∀ x, (valid_move col row stones grid_lines current_player cb cw).stones x =
        if x ∈ R then none else stones x) ∧
      ((valid_move col row stones grid_lines current_player cb cw).captured_black =
        cb + (R.filter fun x => stones x = some 1).card) ∧
      ((valid_move col row stones grid_lines current_player cb cw).captured_white =
        cw + (R.filter fun x => stones x = some 2).card) := by
  obtain ⟨R, hR1, hR2, hR3, hR4⟩ := resolve_captures_accounting current_player
    grid_lines (get_neighbours col row grid_lines) stones cb cw
  refine ⟨?_, ?_, R, ?_, ?_, ?_, ?_⟩
  · show cb ≤ (resolve_captures current_player grid_lines
      (get_neighbours col row grid_lines) stones cb cw).2.1
    rw [hR3]; omega
  · show cw ≤ (resolve_captures current_player grid_lines
      (get_neighbours col row grid_lines) stones cb cw).2.2
    rw [hR4]; omega
  · intro x hx
    obtain ⟨v, hv, _⟩ := hR1 x hx
    rw [hv]; simp
  · exact hR2
  · exact hR3
  · exact hR4

/-! ### Claim C2: the suicide rejection path of the game loop -/

/-- C2: when the provisionally placed stone's group has no liberties after
capture resolution, the click handler deletes exactly the placed stone from
the capture-resolved board, keeps the capture-resolved tallies (so any tally
increments from already-applied captures are retained, and the tallies never
fall below their starting values), and does not change the current player. -/
theorem handle_click_suicide_rollback (col row : ℤ) (stones : Board)
    (grid_lines : ℤ) (current_player : ℕ) (cb cw : ℕ)
    (hin : in_bounds grid_lines (col, row))
    (hempty : stones (col, row) = none)
    (hsuicide : (valid_move col row
        (fun x => if x = (col, row) then some current_player else stones x)
        grid_lines current_player cb cw).liberties = ∅) :
    (handle_click col row stones grid_lines current_player cb cw).stones
        (col, row) = none ∧
    (∀ x, x ≠ ((col, row) : Cell) →
      (handle_click col row stones grid_lines current_player cb cw).stones x =
        (valid_move col row
          (fun y => if y = (col, row) then some current_player else stones y)
          grid_lines current_player cb cw).stones x) ∧
    (handle_click col row stones grid_lines current_player cb cw).captured_black =
      (valid_move col row
        (fun y => if y = (col, row) then some current_player else stones y)
        grid_lines current_player cb cw).captured_black ∧
    (handle_click col row stones grid_lines current_player cb cw).captured_white =
      (valid_move col row
        (fun y => if y = (col, row) then some current_player else stones y)
        grid_lines current_player cb cw).captured_white ∧
    cb ≤ (handle_click col row stones grid_lines current_player cb cw).captured_black ∧
    cw ≤ (handle_click col row stones grid_lines current_player cb cw).captured_white ∧
    (handle_click col row stones grid_lines current_player cb cw).current_player =
      current_player ∧
    (handle_click col row stones grid_lines current_player cb cw).accepted = false := by
  have hcond : in_bounds grid_lines (col, row) ∧ stones (col, row) = none :=
    ⟨hin, hempty⟩
  have hck : handle_click col row stones grid_lines current_player cb cw =
      ⟨fun x => if x = (col, row) then none else
          (valid_move col row
            (fun y => if y = (col, row) then some current_player else stones y)
            grid_lines current_player cb cw).stones x,
        (valid_move col row
          (fun y => if y = (col, row) then some current_player else stones y)
          grid_lines current_player cb cw).captured_black,
        (valid_move col row
          (fun y => if y = (col, row) then some current_player else stones y)
          grid_lines current_player cb cw).captured_white,
        current_player, false⟩ := by
    rw [handle_click, if_pos hcond, if_pos hsuicide]
  rw [hck]
  obtain ⟨R, hR1, hR2, hR3, hR4⟩ := resolve_captures_accounting current_player
    grid_lines (get_neighbours col row grid_lines)
    (fun y => if y = (col, row) then some current_player else stones y) cb cw
  refine ⟨by simp, fun x hx => by simp [if_neg hx], rfl, rfl, ?_, ?_, rfl, rfl⟩
  · show cb ≤ (resolve_captures current_player grid_lines
      (get_neighbours col row grid_lines)
      (fun y => if y = (col, row) then some current_player else stones y)
      cb cw).2.1
    rw [hR3]; omega
  · show cw ≤ (resolve_captures current_player grid_lines
      (get_neighbours col row grid_lines)
      (fun y => if y = (col, row) then some current_player else stones y)
      cb cw).2.2
    rw [hR4]; omega

/-- Witness for C2 on a concrete suicide move. -/
theorem handle_click_suicide_rollback_witness :
    in_bounds 2 ((0, 0) : Cell) ∧ c2Board (0, 0) = none ∧
    (valid_move 0 0 (fun x => if x = (0, 0) then some 1 else c2Board x)
      2 1 0 0).liberties = ∅ ∧
    ((handle_click 0 0 c2Board 2 1 0 0).stones (0, 0) = none ∧
     (∀ x, x ≠ ((0, 0) : Cell) →
       (handle_click 0 0 c2Board 2 1 0 0).stones x =
         (valid_move 0 0 (fun y => if y = (0, 0) then some 1 else c2Board y)
           2 1 0 0).stones x) ∧
     (handle_click 0 0 c2Board 2 1 0 0).captured_black =
       (valid_move 0 0 (fun y => if y = (0, 0) then some 1 else c2Board y)
         2 1 0 0).captured_black ∧
     (handle_click 0 0 c2Board 2 1 0 0).captured_white =
       (valid_move 0 0 (fun y => if y = (0, 0) then some 1 else c2Board y)
         2 1 0 0).captured_white ∧
     0 ≤ (handle_click 0 0 c2Board 2 1 0 0).captured_black ∧
     0 ≤ (handle_click 0 0 c2Board 2 1 0 0).captured_white ∧
     (handle_click 0 0 c2Board 2 1 0 0).current_player = 1 ∧
     (handle_click 0 0 c2Board 2 1 0 0).accepted = false) :=
  ⟨by decide, rfl, by decide,
    handle_click_suicide_rollback 0 0 c2Board 2 1 0 0 (by decide) rfl (by decide)⟩

/-! ### Claim C8: the computer-move generator -/

theorem mem_empty_cells {stones : Board} {grid_lines : ℤ} {c : Cell} :
    c ∈ empty_cells stones grid_lines ↔
      in_bounds grid_lines c ∧ stones c = none := by
  obtain ⟨c1, c2⟩ := c
  simp only [empty_cells, List.mem_flatMap, List.mem_filterMap, List.mem_range]
  constructor
  · rintro ⟨a, ha, b, hb, hif⟩
    split at hif
    · rename_i hnone
      obtain ⟨rfl, rfl⟩ : (a : ℤ) = c1 ∧ (b : ℤ) = c2 :=
        ⟨congrArg Prod.fst (Option.some_inj.mp hif),
         congrArg Prod.snd (Option.some_inj.mp hif)⟩
      refine ⟨?_, hnone⟩
      simp only [in_bounds]
      omega
    · simp at hif
  · rintro ⟨hinb, hnone⟩
    simp only [in_bounds] at hinb
    refine ⟨c1.toNat, by omega, c2.toNat, by omega, ?_⟩
    have e : (((c1.toNat : ℤ), (c2.toNat : ℤ)) : Cell) = ((c1, c2) : Cell) := by
      have e1 : (c1.toNat : ℤ) = c1 := by omega
      have e2 : (c2.toNat : ℤ) = c2 := by omega
      rw [e1, e2]
    rw [e, if_pos hnone]

theorem computer_move_aux_cons (stones : Board) (grid_lines : ℤ)
    (pick : List Cell → ℕ) (fuel : ℕ) (a : Cell) (as : List Cell) :
    computer_move_aux stones grid_lines pick (fuel + 1) (a :: as) =
      if (get_group_and_liberties ((a :: as).getD
            (pick (a :: as) % (a :: as).length) (0, 0)).1
          ((a :: as).getD (pick (a :: as) % (a :: as).length) (0, 0)).2
          2 stones grid_lines).2 = ∅ then
        computer_move_aux stones grid_lines pick fuel
          ((a :: as).erase ((a :: as).getD (pick (a :: as) % (a :: as).length) (0, 0)))
      else some ((a :: as).getD (pick (a :: as) % (a :: as).length) (0, 0)) := rfl

/-- Correctness of the rejection loop when run with fuel equal to the list
length: any returned cell is a member whose hypothetical group has a liberty,
`none` is returned exactly when every candidate fails the filter, and extra
fuel never changes the answer. -/
theorem computer_move_aux_spec (stones : Board) (grid_lines : ℤ)
    (pick : List Cell → ℕ) :
    ∀ (n : ℕ) (l : List Cell), l.length = n →
      (∀ m, computer_move_aux stones grid_lines pick n l = some m →
        m ∈ l ∧ (get_group_and_liberties m.1 m.2 2 stones grid_lines).2 ≠ ∅) ∧
      (computer_move_aux stones grid_lines pick n l = none ↔
        ∀ c ∈ l, (get_group_and_liberties c.1 c.2 2 stones grid_lines).2 = ∅) ∧
      (∀ extra, computer_move_aux stones grid_lines pick (n + extra) l =
        computer_move_aux stones grid_lines pick n l) := by
  intro n
  induction n with
  | zero =>
    intro l hl
    have hnil : l = [] := List.length_eq_zero.mp hl
    subst hnil
    refine ⟨by simp [computer_move_aux], by simp [computer_move_aux], ?_⟩
    intro extra
    cases extra with
    | zero => rfl
    | succ e => rfl
  | succ n ih =>
    intro l hl
    cases l with
    | nil => simp at hl
    | cons a as =>
      set move := (a :: as).getD (pick (a :: as) % (a :: as).length) (0, 0)
        with hmove
      have hmem : move ∈ a :: as := by
        rw [hmove]
        have hlt : pick (a :: as) % (a :: as).length < (a :: as).length :=
          Nat.mod_lt _ (by simp)
        rw [List.getD_eq_getElem _ _ hlt]
        exact List.getElem_mem hlt
      have hlen : ((a :: as).erase move).length = n := by
        rw [List.length_erase_of_mem hmem]
        simpa using hl
      by_cases hgl :
          (get_group_and_liberties move.1 move.2 2 stones grid_lines).2 = ∅
      · have heq : computer_move_aux stones grid_lines pick (n + 1) (a :: as) =
            computer_move_aux stones grid_lines pick n ((a :: as).erase move) := by
          rw [computer_move_aux_cons, if_pos (by rw [← hmove]; exact hgl)]
        obtain ⟨ih1, ih2, ih3⟩ := ih ((a :: as).erase move) hlen
        refine ⟨?_, ?_, ?_⟩
        · intro m hm
          rw [heq] at hm
          obtain ⟨hm1, hm2⟩ := ih1 m hm
          exact ⟨List.mem_of_mem_erase hm1, hm2⟩
        · rw [heq, ih2]
          constructor
          · intro h c hc
            by_cases hcm : c = move
            · rw [hcm]; exact hgl
            · exact h c ((List.mem_erase_of_ne hcm).mpr hc)
          · intro h c hc
            exact h c (List.mem_of_mem_erase hc)
        · intro extra
          have : n + 1 + extra = (n + extra) + 1 := by omega
          rw [this, computer_move_aux_cons,
            if_pos (by rw [← hmove]; exact hgl), ← hmove, heq]
          exact ih3 extra
      · have heq : computer_move_aux stones grid_lines pick (n + 1) (a :: as) =
            some move := by
          rw [computer_move_aux_cons, if_neg (by rw [← hmove]; exact hgl)]
        refine ⟨?_, ?_, ?_⟩
        · intro m hm
          rw [heq] at hm
          rw [← Option.some_inj.mp hm]
          exact ⟨hmem, hgl⟩
        · rw [heq]
          simp only [reduceCtorEq, false_iff, not_forall]
          push_neg
          exact ⟨move, hmem, hgl⟩
        · intro extra
          have : n + 1 + extra = (n + extra) + 1 := by omega
          rw [this, computer_move_aux_cons,
            if_neg (by rw [← hmove]; exact hgl), ← hmove, heq]

/-- C8: the computer-move generator returns only a currently-empty in-bounds
cell whose hypothetical group (computed as player 2 without applying opponent
captures) has at least one liberty; it returns `None` exactly when no empty
cell passes that filter; and the rejection loop's fuel bound — the number of
empty cells — is exact, since any extra fuel leaves the result unchanged. -/
theorem computer_move_spec (stones : Board) (grid_lines : ℤ)
    (pick : List Cell → ℕ) :
    (∀ m, computer_move stones grid_lines pick = some m →
      in_bounds grid_lines m ∧ stones m = none ∧
      (get_group_and_liberties m.1 m.2 2 stones grid_lines).2 ≠ ∅) ∧
    (computer_move stones grid_lines pick = none ↔
      ∀ c, in_bounds grid_lines c → stones c = none →
        (get_group_and_liberties c.1 c.2 2 stones grid_lines).2 = ∅) ∧
    (∀ extra, computer_move_aux stones grid_lines pick
        ((empty_cells stones grid_lines).length + extra)
        (empty_cells stones grid_lines) =
      computer_move stones grid_lines pick) := by
  obtain ⟨h1, h2, h3⟩ := computer_move_aux_spec stones grid_lines pick
    (empty_cells stones grid_lines).length (empty_cells stones grid_lines) rfl
  refine ⟨?_, ?_, h3⟩
  · intro m hm
    obtain ⟨hmem, hgl⟩ := h1 m hm
    obtain ⟨hinb, hnone⟩ := mem_empty_cells.mp hmem
    exact ⟨hinb, hnone, hgl⟩
  · rw [show computer_move stones grid_lines pick =
      computer_move_aux stones grid_lines pick
        (empty_cells stones grid_lines).length
        (empty_cells stones grid_lines) from rfl, h2]
    constructor
    · intro h c hinb hnone
      exact h c (mem_empty_cells.mpr ⟨hinb, hnone⟩)
    · intro h c hc
      obtain ⟨hinb, hnone⟩ := mem_empty_cells.mp hc
      exact h c hinb hnone

/-- Witness for C8 on the empty 9x9 board with a constant choice oracle. -/
theorem computer_move_spec_witness :
    computer_move (fun _ => none) 9 (fun _ => 0) = some (0, 0) ∧
    in_bounds 9 ((0, 0) : Cell) ∧ (fun _ => none : Board) (0, 0) = none ∧
    (get_group_and_liberties 0 0 2 (fun _ => none) 9).2 ≠ ∅ :=
  ⟨by decide, (computer_move_spec (fun _ => none) 9 (fun _ => 0)).1
    (0, 0) (by decide)⟩



/-! ### Claim C9: the computer's accepted move always keeps its liberties -/

theorem reaches_congr_colour {s1 s2 : Board} {grid_lines : ℤ} {p : ℕ}
    (h : ∀ x, s1 x = some p ↔ s2 x = some p) {a b : Cell} :
    reaches s1 grid_lines p a b ↔ reaches s2 grid_lines p a b :=
  ⟨Relation.ReflTransGen.mono fun x y hxy => ⟨hxy.1, (h y).mp hxy.2⟩,
   Relation.ReflTransGen.mono fun x y hxy => ⟨hxy.1, (h y).mpr hxy.2⟩⟩

/-- Liberties are monotone under board changes that preserve the analyzed
colour's stones and only empty further cells. -/
theorem ggl_libs_subset {s1 s2 : Board} {col row grid_lines : ℤ} {p : ℕ}
    (hcol : ∀ x, s1 x = some p ↔ s2 x = some p)
    (hemp : ∀ x, s1 x = none → s2 x = none) :
    (get_group_and_liberties col row p s1 grid_lines).2 ⊆
      (get_group_and_liberties col row p s2 grid_lines).2 := by
  intro n hn
  rw [ggl_libs_mem] at hn ⊢
  obtain ⟨he, hnr, c, hr, hnb⟩ := hn
  exact ⟨hemp n he, fun h => hnr ((reaches_congr_colour hcol).mpr h),
    c, (reaches_congr_colour hcol).mp hr, hnb⟩

/-- C9: whenever `computer_move` returns a cell, placing the computer's stone
(player 2) there and running `valid_move` yields a nonempty liberties set —
opponent captures can only add liberties — so the game loop's branch that
deletes the just-placed computer stone is never taken: the stone stays on the
board and the turn passes to the human. -/
theorem computer_turn_no_suicide (st : TurnState) (grid_lines : ℤ)
    (pick : List Cell → ℕ) (m : Cell)
    (hp : st.current_player = 2)
    (hcm : computer_move st.stones grid_lines pick = some m) :
    (valid_move m.1 m.2
        (fun x => if x = m then some st.current_player else st.stones x)
        grid_lines st.current_player st.captured_black
        st.captured_white).liberties ≠ ∅ ∧
    (computer_turn st grid_lines pick).stones m = some 2 ∧
    (computer_turn st grid_lines pick).current_player = 1 := by
  obtain ⟨haux, -, -⟩ := computer_move_aux_spec st.stones grid_lines pick
    (empty_cells st.stones grid_lines).length
    (empty_cells st.stones grid_lines) rfl
  obtain ⟨hmem, hlib⟩ := haux m hcm
  set s1 : Board := fun x => if x = m then some st.current_player else st.stones x
    with hs1
  have hs1' : s1 = fun x => if x = m then some 2 else st.stones x := by
    rw [hs1, hp]
  have hlib1 : (get_group_and_liberties m.1 m.2 2 s1 grid_lines).2 ≠ ∅ := by
    rw [hs1']
    have := ggl_update_start m.1 m.2 2 st.stones grid_lines
    rw [show (fun x => if x = m then some 2 else st.stones x) =
        (fun x => if x = ((m.1, m.2) : Cell) then some 2 else st.stones x)
      from rfl]
    rw [← this]
    exact hlib
  obtain ⟨R, hR1, hR2, hR3, hR4⟩ := resolve_captures_accounting
    st.current_player grid_lines (get_neighbours m.1 m.2 grid_lines) s1
    st.captured_black st.captured_white
  set s2 : Board := (resolve_captures st.current_player grid_lines
    (get_neighbours m.1 m.2 grid_lines) s1 st.captured_black
    st.captured_white).1 with hs2
  have hcol : ∀ x, s1 x = some 2 ↔ s2 x = some 2 := by
    intro x
    rw [hR2 x]
    constructor
    · intro hx
      have hxR : x ∉ R := by
        intro hxR
        obtain ⟨v, hv, hvne⟩ := hR1 x hxR
        rw [hx] at hv
        rw [hp] at hvne
        exact hvne (Option.some_inj.mp hv).symm
      rw [if_neg hxR]
      exact hx
    · intro hx
      by_cases hxR : x ∈ R
      · rw [if_pos hxR] at hx; exact absurd hx (by simp)
      · rwa [if_neg hxR] at hx
  have hemp : ∀ x, s1 x = none → s2 x = none := by
    intro x hx
    rw [hR2 x]
    by_cases hxR : x ∈ R
    · rw [if_pos hxR]
    · rw [if_neg hxR]; exact hx
  have hlib2 : (valid_move m.1 m.2 s1 grid_lines st.current_player
      st.captured_black st.captured_white).liberties ≠ ∅ := by
    show (get_group_and_liberties m.1 m.2 st.current_player s2
      grid_lines).2 ≠ ∅
    rw [hp]
    obtain ⟨y, hy⟩ := Finset.nonempty_iff_ne_empty.mpr hlib1
    exact Finset.nonempty_iff_ne_empty.mp ⟨y, ggl_libs_subset hcol hemp hy⟩
  have hsm : (valid_move m.1 m.2 s1 grid_lines st.current_player
      st.captured_black st.captured_white).stones m = some 2 := by
    show s2 m = some 2
    refine (hcol m).mp ?_
    rw [hs1']
    simp
  refine ⟨hlib2, ?_⟩
  set r := valid_move m.1 m.2 s1 grid_lines st.current_player
    st.captured_black st.captured_white with hr
  have hct : computer_turn st grid_lines pick =
      { st with stones := r.stones,
                captured_black := r.captured_black,
                captured_white := r.captured_white,
                current_player := 3 - st.current_player,
                computer_tries := 0, pass_count := 0 } := by
    simp only [computer_turn, hcm]
    rw [← hs1, ← hr]
    rw [if_neg hlib2]
  rw [hct, hp]
  exact ⟨hsm, rfl⟩

/-- Witness for C9: on `c9State` with the constant oracle, the computer picks
(0, 1); the placed stone keeps a liberty and stays on the board. -/
theorem computer_turn_no_suicide_witness :
    c9State.current_player = 2 ∧
    computer_move c9State.stones 2 (fun _ => 0) = some (0, 1) ∧
    ((valid_move 0 1
        (fun x => if x = ((0, 1) : Cell) then some c9State.current_player
          else c9State.stones x)
        2 c9State.current_player c9State.captured_black
        c9State.captured_white).liberties ≠ ∅ ∧
     (computer_turn c9State 2 (fun _ => 0)).stones (0, 1) = some 2 ∧
     (computer_turn c9State 2 (fun _ => 0)).current_player = 1) :=
  ⟨rfl, by decide, computer_turn_no_suicide c9State 2 (fun _ => 0) (0, 1)
    rfl (by decide)⟩



/-! ### Same-colour components: symmetry and stability under removals -/

/-- Within a colour's stones, search reachability is symmetric (on in-bounds
boards). -/
theorem reaches_symm {stones : Board} {grid_lines : ℤ} {q : ℕ} {n x : Cell}
    (hb : ∀ c v, stones c = some v → in_bounds grid_lines c)
    (hn : stones n = some q) (h : reaches stones grid_lines q n x) :
    reaches stones grid_lines q x n := by
  induction h with
  | refl => exact Relation.ReflTransGen.refl
  | tail hab hbc ih =>
    rename_i b c
    have hcolb : stones b = some q := by
      rcases reaches_colour hab with rfl | h'
      · exact hn
      · exact h'
    have hstep : b ∈ get_neighbours c.1 c.2 grid_lines := by
      rw [mem_get_neighbours]
      refine ⟨?_, hb b q hcolb⟩
      have := (mem_get_neighbours.mp hbc.1).1
      exact adjacent_symm (by simpa using this)
    exact Relation.ReflTransGen.head ⟨hstep, hcolb⟩ ih

/-- Moving the start of the analyzer to any cell of the same group leaves the
group and the liberties unchanged. -/
theorem ggl_eq_of_reaches {stones : Board} {grid_lines : ℤ} {q : ℕ}
    {n n0 : Cell}
    (hb : ∀ c v, stones c = some v → in_bounds grid_lines c)
    (hn0 : stones n0 = some q)
    (hr : reaches stones grid_lines q n0 n) :
    get_group_and_liberties n.1 n.2 q stones grid_lines =
      get_group_and_liberties n0.1 n0.2 q stones grid_lines := by
  have hiff : ∀ y, reaches stones grid_lines q n y ↔
      reaches stones grid_lines q n0 y := by
    intro y
    constructor
    · exact fun h => hr.trans h
    · exact fun h => (reaches_symm hb hn0 hr).trans h
  refine Prod.ext ?_ ?_
  · ext c
    rw [ggl_group_mem, ggl_group_mem]
    exact hiff c
  · ext m
    rw [ggl_libs_mem, ggl_libs_mem]
    constructor
    · rintro ⟨he, hnr, c, hrc, hnb⟩
      exact ⟨he, fun h => hnr ((hiff m).mpr h), c, (hiff c).mp hrc, hnb⟩
    · rintro ⟨he, hnr, c, hrc, hnb⟩
      exact ⟨he, fun h => hnr ((hiff m).mp h), c, (hiff c).mpr hrc, hnb⟩

/-- Reachability is unchanged by deleting a set of cells disjoint from the
start's component. -/
theorem reaches_punctured {stones s' : Board} {grid_lines : ℤ} {q : ℕ}
    {n : Cell} {D : Finset Cell}
    (hD : ∀ x, s' x = if x ∈ D then none else stones x)
    (hdisj : ∀ y, reaches stones grid_lines q n y → y ∉ D) :
    ∀ y, reaches s' grid_lines q n y ↔ reaches stones grid_lines q n y := by
  intro y
  constructor
  · refine Relation.ReflTransGen.mono fun a b hab => ⟨hab.1, ?_⟩
    have := hD b
    rw [hab.2] at this
    by_cases hbD : b ∈ D
    · rw [if_pos hbD] at this; exact absurd this.symm (by simp)
    · rw [if_neg hbD] at this; exact this.symm
  · intro h
    induction h with
    | refl => exact Relation.ReflTransGen.refl
    | tail hab hbc ih =>
      rename_i b c
      refine Relation.ReflTransGen.tail ih ⟨hbc.1, ?_⟩
      have hcD : c ∉ D := hdisj c (hab.tail hbc)
      rw [hD c, if_neg hcD]
      exact hbc.2

/-- The analyzer gives the same group and liberties after deleting a set of
same-coloured cells disjoint from the analyzed component. -/
theorem ggl_punctured_eq {stones s' : Board} {grid_lines : ℤ} {q : ℕ}
    {n : Cell} {D : Finset Cell}
    (hD : ∀ x, s' x = if x ∈ D then none else stones x)
    (hDq : ∀ x ∈ D, stones x = some q)
    (hdisj : ∀ y, reaches stones grid_lines q n y → y ∉ D) :
    get_group_and_liberties n.1 n.2 q s' grid_lines =
      get_group_and_liberties n.1 n.2 q stones grid_lines := by
  have hreach := reaches_punctured hD hdisj
  refine Prod.ext ?_ ?_
  · ext c
    rw [ggl_group_mem, ggl_group_mem]
    exact hreach c
  · ext m
    rw [ggl_libs_mem, ggl_libs_mem]
    constructor
    · rintro ⟨he, hnr, c, hrc, hnb⟩
      refine ⟨?_, fun h => hnr ((hreach m).mpr h), c, (hreach c).mp hrc, hnb⟩
      by_cases hmD : m ∈ D
      · exfalso
        have hcm : reaches stones grid_lines q n m :=
          ((hreach c).mp hrc).tail ⟨hnb, hDq m hmD⟩
        exact hdisj m hcm hmD
      · have := hD m
        rw [if_neg hmD] at this
        rw [← this]
        exact he
    · rintro ⟨he, hnr, c, hrc, hnb⟩
      refine ⟨?_, fun h => hnr ((hreach m).mp h), c, (hreach c).mpr hrc, hnb⟩
      rw [hD m]
      by_cases hmD : m ∈ D
      · rw [if_pos hmD]
      · rw [if_neg hmD]; exact he


theorem deadU_cons (p : ℕ) (stones : Board) (grid_lines : ℤ) (n : Cell)
    (ns : List Cell) :
    deadU p stones grid_lines (n :: ns) =
      dblock p stones grid_lines n ∪ deadU p stones grid_lines ns := rfl

/-- Running the capture loop on the original board minus a union `D` of dead
opposing components removes, in addition, exactly the dead opposing
components of the cells in the list, and counts the newly removed cells by
their colour on the original board. -/
theorem resolve_captures_dead (p : ℕ) (stones : Board) (grid_lines : ℤ)
    (hb : ∀ c v, stones c = some v → in_bounds grid_lines c)
    (hvals : ∀ c v, stones c = some v → v = 1 ∨ v = 2)
    (hp : p = 1 ∨ p = 2) :
    ∀ (L : List Cell) (D : Finset Cell) (s' : Board) (cb cw : ℕ),
      GoodDead p stones grid_lines D →
      (∀ x, s' x = if x ∈ D then none else stones x) →
      (∀ x, (resolve_captures p grid_lines L s' cb cw).1 x =
        if x ∈ D ∪ deadU p stones grid_lines L then none else stones x) ∧
      ((resolve_captures p grid_lines L s' cb cw).2.1 =
        cb + (((D ∪ deadU p stones grid_lines L) \ D).filter
          fun x => stones x = some 1).card) ∧
      ((resolve_captures p grid_lines L s' cb cw).2.2 =
        cw + (((D ∪ deadU p stones grid_lines L) \ D).filter
          fun x => stones x = some 2).card) := by
  intro L
  induction L with
  | nil =>
    intro D s' cb cw hgood hs'
    refine ⟨?_, ?_, ?_⟩
    · intro x
      simp only [resolve_captures, deadU, Finset.union_empty]
      exact hs' x
    · simp [resolve_captures, deadU]
    · simp [resolve_captures, deadU]
  | cons n ns ih =>
    intro D s' cb cw hgood hs'
    by_cases hd : n ∈ D
    · -- the neighbour was already removed as part of D
      have hsn' : s' n = none := by rw [hs' n, if_pos hd]
      obtain ⟨n0, hcol0, hdead0, hr0, hclos0⟩ := hgood n hd
      have hq : p = 1 ∨ p = 2 := hp
      have hsn : stones n = some (3 - p) := by
        rcases reaches_colour hr0 with rfl | h'
        · exact hcol0
        · exact h'
      have hggl : get_group_and_liberties n.1 n.2 (3 - p) stones grid_lines =
          get_group_and_liberties n0.1 n0.2 (3 - p) stones grid_lines :=
        ggl_eq_of_reaches hb hcol0 hr0
      have hdbl : dblock p stones grid_lines n =
          (get_group_and_liberties n0.1 n0.2 (3 - p) stones grid_lines).1 := by
        simp only [dblock, hsn]
        rw [if_pos ⟨by omega, by rw [hggl]; exact hdead0⟩, hggl]
      have hsub : dblock p stones grid_lines n ⊆ D := by
        rw [hdbl]
        intro x hx
        exact hclos0 x ((ggl_group_mem _ _ _ _ _ _).mp hx)
      have hunion : D ∪ deadU p stones grid_lines (n :: ns) =
          D ∪ deadU p stones grid_lines ns := by
        rw [deadU_cons, ← Finset.union_assoc,
          Finset.union_eq_left.mpr hsub]
      obtain ⟨ih1, ih2, ih3⟩ := ih D s' cb cw hgood hs'
      rw [resolve_captures_cons]
      simp only [hsn']
      rw [hunion]
      exact ⟨ih1, ih2, ih3⟩
    · have hsn' : s' n = stones n := by rw [hs' n, if_neg hd]
      rcases hsn : stones n with _ | v
      · -- empty neighbour: nothing to do
        have hdbl : dblock p stones grid_lines n = ∅ := by
          simp only [dblock, hsn]
        obtain ⟨ih1, ih2, ih3⟩ := ih D s' cb cw hgood hs'
        rw [resolve_captures_cons]
        simp only [hsn' , hsn]
        rw [deadU_cons, hdbl, Finset.empty_union]
        exact ⟨ih1, ih2, ih3⟩
      · by_cases hv : v = p
        · -- own-colour neighbour: skipped
          have hdbl : dblock p stones grid_lines n = ∅ := by
            simp only [dblock, hsn]
            rw [if_neg (by simp [hv])]
          obtain ⟨ih1, ih2, ih3⟩ := ih D s' cb cw hgood hs'
          rw [resolve_captures_cons]
          simp only [hsn', hsn]
          rw [if_pos hv, deadU_cons, hdbl, Finset.empty_union]
          exact ⟨ih1, ih2, ih3⟩
        · -- opposing neighbour
          have hq : v = 3 - p := by
            rcases hvals n v hsn with rfl | rfl <;> omega
          subst hq
          have hdisj : ∀ y, reaches stones grid_lines (3 - p) n y → y ∉ D := by
            intro y hy hyD
            obtain ⟨n0, hcol0, hdead0, hr0, hclos0⟩ := hgood y hyD
            have hyn : reaches stones grid_lines (3 - p) y n :=
              reaches_symm hb hsn hy
            exact hd (hclos0 n (hr0.trans hyn))
          have hDq : ∀ x ∈ D, stones x = some (3 - p) := by
            intro x hx
            obtain ⟨n0, hcol0, _, hr0, _⟩ := hgood x hx
            rcases reaches_colour hr0 with rfl | h'
            · exact hcol0
            · exact h'
          have hgl_eq : get_group_and_liberties n.1 n.2 (3 - p) s' grid_lines =
              get_group_and_liberties n.1 n.2 (3 - p) stones grid_lines :=
            ggl_punctured_eq hs' hDq hdisj
          by_cases hdead :
              (get_group_and_liberties n.1 n.2 (3 - p) stones grid_lines).2 = ∅
          · -- freshly captured component
            set G := (get_group_and_liberties n.1 n.2 (3 - p)
              stones grid_lines).1 with hG
            have hGD : ∀ x ∈ G, x ∉ D := by
              intro x hx
              exact hdisj x ((ggl_group_mem _ _ _ _ _ _).mp hx)
            have hGocc : ∀ x ∈ G, stones x = some (3 - p) := by
              intro x hx
              rcases reaches_colour ((ggl_group_mem _ _ _ _ _ _).mp hx)
                with rfl | h'
              · exact hsn
              · exact h'
            have hgood' : GoodDead p stones grid_lines (D ∪ G) := by
              intro x hx
              rcases Finset.mem_union.mp hx with hxD | hxG
              · obtain ⟨n0, h1, h2, h3, h4⟩ := hgood x hxD
                exact ⟨n0, h1, h2, h3, fun y hy =>
                  Finset.mem_union_left _ (h4 y hy)⟩
              · exact ⟨n, hsn, hdead, (ggl_group_mem _ _ _ _ _ _).mp hxG,
                  fun y hy => Finset.mem_union_right _
                    ((ggl_group_mem _ _ _ _ _ _).mpr hy)⟩
            have hs'' : ∀ x, (remove_group G s' cb cw).1 x =
                if x ∈ D ∪ G then none else stones x := by
              intro x
              simp only [remove_group]
              by_cases hxG : x ∈ G
              · rw [if_pos hxG, if_pos (Finset.mem_union_right _ hxG)]
              · rw [if_neg hxG, hs' x]
                by_cases hxD : x ∈ D
                · rw [if_pos hxD, if_pos (Finset.mem_union_left _ hxD)]
                · rw [if_neg hxD, if_neg (by
                    intro hmem
                    rcases Finset.mem_union.mp hmem with h | h
                    · exact hxD h
                    · exact hxG h)]
            have hfilt1 : (G.filter fun x => s' x = some 1) =
                (G.filter fun x => stones x = some 1) := by
              refine Finset.filter_congr ?_
              intro x hx
              rw [hs' x, if_neg (hGD x hx)]
            have hfilt2 : (G.filter fun x => s' x = some 2) =
                (G.filter fun x => stones x = some 2) := by
              refine Finset.filter_congr ?_
              intro x hx
              rw [hs' x, if_neg (hGD x hx)]
            obtain ⟨ih1, ih2, ih3⟩ := ih (D ∪ G) (remove_group G s' cb cw).1
              (remove_group G s' cb cw).2.1 (remove_group G s' cb cw).2.2
              hgood' hs''
            have hstep : resolve_captures p grid_lines (n :: ns) s' cb cw =
                resolve_captures p grid_lines ns (remove_group G s' cb cw).1
                  (remove_group G s' cb cw).2.1
                  (remove_group G s' cb cw).2.2 := by
              rw [resolve_captures_cons]
              simp only [hsn', hsn]
              rw [if_neg hv, hgl_eq, if_pos hdead, ← hG]
            have hdbl : dblock p stones grid_lines n = G := by
              simp only [dblock, hsn]
              rw [if_pos ⟨hv, hdead⟩, ← hG]
            have hDfin : D ∪ deadU p stones grid_lines (n :: ns) =
                (D ∪ G) ∪ deadU p stones grid_lines ns := by
              rw [deadU_cons, hdbl, ← Finset.union_assoc]
            -- the double difference splits as the fresh component plus the rest
            have hsplit : (((D ∪ G) ∪ deadU p stones grid_lines ns) \ D) =
                G ∪ ((((D ∪ G) ∪ deadU p stones grid_lines ns)) \ (D ∪ G)) := by
              ext x
              simp only [Finset.mem_sdiff, Finset.mem_union]
              constructor
              · rintro ⟨hin, hnD⟩
                by_cases hxG : x ∈ G
                · exact Or.inl hxG
                · exact Or.inr ⟨hin, by
                    intro h
                    rcases h with h | h
                    · exact hnD h
                    · exact hxG h⟩
              · rintro (hxG | ⟨hin, hnotDG⟩)
                · exact ⟨Or.inl (Or.inr hxG), hGD x hxG⟩
                · exact ⟨hin, fun h => hnotDG (Or.inl h)⟩
            have hdisj2 : Disjoint G
                ((((D ∪ G) ∪ deadU p stones grid_lines ns)) \ (D ∪ G)) := by
              rw [Finset.disjoint_left]
              intro x hxG hxS
              exact (Finset.mem_sdiff.mp hxS).2 (Finset.mem_union_right _ hxG)
            refine ⟨?_, ?_, ?_⟩
            · intro x
              rw [hstep, ih1 x, hDfin]
            · rw [hstep, ih2]
              simp only [remove_group]
              rw [hfilt1, hDfin, hsplit, Finset.filter_union,
                Finset.card_union_of_disjoint
                  (Finset.disjoint_filter_filter hdisj2)]
              omega
            · rw [hstep, ih3]
              simp only [remove_group]
              rw [hfilt2, hDfin, hsplit, Finset.filter_union,
                Finset.card_union_of_disjoint
                  (Finset.disjoint_filter_filter hdisj2)]
              omega
          · -- opposing component still alive: left alone
            have hdbl : dblock p stones grid_lines n = ∅ := by
              simp only [dblock, hsn]
              rw [if_neg (by
                rintro ⟨-, h⟩
                exact hdead h)]
            obtain ⟨ih1, ih2, ih3⟩ := ih D s' cb cw hgood hs'
            rw [resolve_captures_cons]
            simp only [hsn', hsn]
            rw [if_neg hv, hgl_eq, if_neg hdead, deadU_cons, hdbl,
              Finset.empty_union]
            exact ⟨ih1, ih2, ih3⟩


theorem mem_deadU {p : ℕ} {stones : Board} {grid_lines : ℤ} :
    ∀ {L : List Cell} {x : Cell},
      x ∈ deadU p stones grid_lines L ↔
        ∃ n ∈ L, x ∈ dblock p stones grid_lines n := by
  intro L
  induction L with
  | nil => simp [deadU]
  | cons n ns ih =>
    intro x
    simp only [deadU, Finset.mem_union, ih, List.mem_cons]
    constructor
    · rintro (h | ⟨n', hn', hx⟩)
      · exact ⟨n, Or.inl rfl, h⟩
      · exact ⟨n', Or.inr hn', hx⟩
    · rintro ⟨n', (rfl | hn'), hx⟩
      · exact Or.inl hx
      · exact Or.inr ⟨n', hn', hx⟩

theorem mem_dblock {p : ℕ} {stones : Board} {grid_lines : ℤ} {n x : Cell} :
    x ∈ dblock p stones grid_lines n ↔
      ∃ q, stones n = some q ∧ q ≠ p ∧
        (get_group_and_liberties n.1 n.2 q stones grid_lines).2 = ∅ ∧
        x ∈ (get_group_and_liberties n.1 n.2 q stones grid_lines).1 := by
  rcases hs : stones n with _ | q
  · simp [dblock, hs]
  · simp only [dblock, hs]
    by_cases hcond : q ≠ p ∧
        (get_group_and_liberties n.1 n.2 q stones grid_lines).2 = ∅
    · rw [if_pos hcond]
      constructor
      · intro hx
        exact ⟨q, rfl, hcond.1, hcond.2, hx⟩
      · rintro ⟨q', hq', hne, hdead, hx⟩
        obtain rfl : q = q' := Option.some_inj.mp hq'
        exact hx
    · rw [if_neg hcond]
      simp only [Finset.not_mem_empty, false_iff]
      rintro ⟨q', hq', hne, hdead, hx⟩
      obtain rfl : q = q' := Option.some_inj.mp hq'
      exact hcond ⟨hne, hdead⟩

/-- C4: on a two-colour in-bounds board, after the placed stone is written,
`valid_move` removes exactly the union of the opposing neighbour groups that
have no liberties — several disjoint such groups in the same move — credits
the captured colour's tally with the total number of removed cells of that
colour, and leaves every opposing neighbour group that still has a liberty
untouched. -/
theorem valid_move_captures_all_dead (col row : ℤ) (stones : Board)
    (grid_lines : ℤ) (p cb cw : ℕ)
    (hb : ∀ c v, stones c = some v → in_bounds grid_lines c)
    (hvals : ∀ c v, stones c = some v → v = 1 ∨ v = 2)
    (hp : p = 1 ∨ p = 2)
    (hplaced : stones (col, row) = some p) :
    (∀ x, (valid_move col row stones grid_lines p cb cw).stones x =
      if x ∈ dead_adjacent col row p stones grid_lines then none
      else stones x) ∧
    ((valid_move col row stones grid_lines p cb cw).captured_black =
      cb + ((dead_adjacent col row p stones grid_lines).filter
        fun x => stones x = some 1).card) ∧
    ((valid_move col row stones grid_lines p cb cw).captured_white =
      cw + ((dead_adjacent col row p stones grid_lines).filter
        fun x => stones x = some 2).card) ∧
    (∀ n ∈ get_neighbours col row grid_lines, ∀ q, stones n = some q →
      q ≠ p → (get_group_and_liberties n.1 n.2 q stones grid_lines).2 ≠ ∅ →
      ∀ x ∈ (get_group_and_liberties n.1 n.2 q stones grid_lines).1,
        (valid_move col row stones grid_lines p cb cw).stones x = stones x) := by
  obtain ⟨h1, h2, h3⟩ := resolve_captures_dead p stones grid_lines hb hvals hp
    (get_neighbours col row grid_lines) ∅ stones cb cw
    (by intro x hx; simp at hx) (by intro x; simp)
  have hda : (∅ : Finset Cell) ∪
      deadU p stones grid_lines (get_neighbours col row grid_lines) =
      dead_adjacent col row p stones grid_lines := by
    rw [Finset.empty_union, dead_adjacent]
  refine ⟨?_, ?_, ?_, ?_⟩
  · intro x
    show (resolve_captures p grid_lines (get_neighbours col row grid_lines)
      stones cb cw).1 x = _
    rw [h1 x, hda]
  · show (resolve_captures p grid_lines (get_neighbours col row grid_lines)
      stones cb cw).2.1 = _
    rw [h2, hda, Finset.sdiff_empty]
  · show (resolve_captures p grid_lines (get_neighbours col row grid_lines)
      stones cb cw).2.2 = _
    rw [h3, hda, Finset.sdiff_empty]
  · intro n hn q hsn hqp halive x hx
    show (resolve_captures p grid_lines (get_neighbours col row grid_lines)
      stones cb cw).1 x = _
    rw [h1 x, hda]
    rw [if_neg ?_]
    intro hxdead
    rw [dead_adjacent] at hxdead
    obtain ⟨n', hn', hxb⟩ := mem_deadU.mp hxdead
    obtain ⟨q', hsn', hq'p, hdead', hx'⟩ := mem_dblock.mp hxb
    have hq : q = 3 - p := by
      rcases hvals n q hsn with rfl | rfl <;> rcases hp with rfl | rfl <;> omega
    have hq' : q' = 3 - p := by
      rcases hvals n' q' hsn' with rfl | rfl <;> rcases hp with rfl | rfl <;> omega
    rw [hq'] at hsn' hdead' hx'
    rw [hq] at hsn halive hx
    have hrnx : reaches stones grid_lines (3 - p) n x :=
      (ggl_group_mem _ _ _ _ _ _).mp hx
    have hrn'x : reaches stones grid_lines (3 - p) n' x :=
      (ggl_group_mem _ _ _ _ _ _).mp hx'
    have hrn'n : reaches stones grid_lines (3 - p) n' n :=
      hrn'x.trans (reaches_symm hb hsn hrnx)
    have heq := ggl_eq_of_reaches hb hsn' hrn'n
    rw [heq] at halive
    exact halive hdead'

/-- Witness board for C4: black about to complete two simultaneous captures
of the single white stones at (0, 1) and (2, 1) by playing at (1, 1); the
board already carries the placed stone at (1, 1). -/
def c4Board : Board := fun c =>
  if c = (0, 0) ∨ c = (0, 2) ∨ c = (2, 0) ∨ c = (2, 2) ∨ c = (1, 1) then some 1
  else if c = (0, 1) ∨ c = (2, 1) then some 2
  else none

theorem c4Board_bounds : ∀ c v, c4Board c = some v → in_bounds 3 c := by
  intro c v h
  simp only [c4Board] at h
  split at h
  · rename_i h1
    rcases h1 with rfl | rfl | rfl | rfl | rfl
    · decide
    · decide
    · decide
    · decide
    · decide
  · split at h
    · rename_i h2
      rcases h2 with rfl | rfl
      · decide
      · decide
    · simp at h

theorem c4Board_vals : ∀ c v, c4Board c = some v → v = 1 ∨ v = 2 := by
  intro c v h
  simp only [c4Board] at h
  split at h
  · exact Or.inl (Option.some_inj.mp h).symm
  · split at h
    · exact Or.inr (Option.some_inj.mp h).symm
    · simp at h

/-- Witness for C4 at the double-capture board. -/
theorem valid_move_captures_all_dead_witness :
    (∀ c v, c4Board c = some v → in_bounds 3 c) ∧
    (∀ c v, c4Board c = some v → v = 1 ∨ v = 2) ∧
    ((1 : ℕ) = 1 ∨ (1 : ℕ) = 2) ∧ c4Board (1, 1) = some 1 ∧
    ((∀ x, (valid_move 1 1 c4Board 3 1 0 0).stones x =
      if x ∈ dead_adjacent 1 1 1 c4Board 3 then none else c4Board x) ∧
    ((valid_move 1 1 c4Board 3 1 0 0).captured_black =
      0 + ((dead_adjacent 1 1 1 c4Board 3).filter
        fun x => c4Board x = some 1).card) ∧
    ((valid_move 1 1 c4Board 3 1 0 0).captured_white =
      0 + ((dead_adjacent 1 1 1 c4Board 3).filter
        fun x => c4Board x = some 2).card) ∧
    (∀ n ∈ get_neighbours 1 1 3, ∀ q, c4Board n = some q →
      q ≠ 1 → (get_group_and_liberties n.1 n.2 q c4Board 3).2 ≠ ∅ →
      ∀ x ∈ (get_group_and_liberties n.1 n.2 q c4Board 3).1,
        (valid_move 1 1 c4Board 3 1 0 0).stones x = c4Board x)) :=
  ⟨c4Board_bounds, c4Board_vals, Or.inl rfl, by decide,
    valid_move_captures_all_dead 1 1 c4Board 3 1 0 0 c4Board_bounds
      c4Board_vals (Or.inl rfl) (by decide)⟩



/-! ### The territory flood-fill (claim C5) -/

theorem region_scan_queue_mem (stones : Board) (visited : Finset Cell) :
    ∀ (ns queue : List Cell) (nbrs : Finset ℕ) (c : Cell),
      c ∈ (region_scan_neighbours stones visited ns queue nbrs).1 ↔
        c ∈ queue ∨ (c ∈ ns ∧ stones c = none ∧ c ∉ visited) := by
  intro ns
  induction ns with
  | nil => simp [region_scan_neighbours]
  | cons n ns ih =>
    intro queue nbrs c
    rcases hs : stones n with _ | v
    · by_cases hv : n ∈ visited
      · simp only [region_scan_neighbours, hs, if_pos hv, ih, List.mem_cons]
        constructor
        · rintro (h | h)
          · exact Or.inl h
          · exact Or.inr ⟨Or.inr h.1, h.2⟩
        · rintro (h | ⟨(rfl | h), he, hnv⟩)
          · exact Or.inl h
          · exact absurd hv hnv
          · exact Or.inr ⟨h, he, hnv⟩
      · simp only [region_scan_neighbours, hs, if_neg hv, ih,
          List.mem_append, List.mem_singleton, List.not_mem_nil, or_false,
          List.mem_cons]
        constructor
        · rintro ((h | rfl) | h)
          · exact Or.inl h
          · exact Or.inr ⟨Or.inl rfl, hs, hv⟩
          · exact Or.inr ⟨Or.inr h.1, h.2⟩
        · rintro (h | ⟨(rfl | h), he, hnv⟩)
          · exact Or.inl (Or.inl h)
          · exact Or.inl (Or.inr rfl)
          · exact Or.inr ⟨h, he, hnv⟩
    · simp only [region_scan_neighbours, hs, ih, List.mem_cons]
      constructor
      · rintro (h | h)
        · exact Or.inl h
        · exact Or.inr ⟨Or.inr h.1, h.2⟩
      · rintro (h | ⟨(rfl | h), he, hnv⟩)
        · exact Or.inl h
        · rw [hs] at he; exact absurd he (by simp)
        · exact Or.inr ⟨h, he, hnv⟩

theorem region_scan_nbrs_mem (stones : Board) (visited : Finset Cell) :
    ∀ (ns queue : List Cell) (nbrs : Finset ℕ) (v : ℕ),
      v ∈ (region_scan_neighbours stones visited ns queue nbrs).2 ↔
        v ∈ nbrs ∨ ∃ n ∈ ns, stones n = some v := by
  intro ns
  induction ns with
  | nil => simp [region_scan_neighbours]
  | cons n ns ih =>
    intro queue nbrs v
    rcases hs : stones n with _ | w
    · by_cases hv : n ∈ visited
      · simp only [region_scan_neighbours, hs, if_pos hv, ih, List.mem_cons]
        constructor
        · rintro (h | ⟨m, hm, hw⟩)
          · exact Or.inl h
          · exact Or.inr ⟨m, Or.inr hm, hw⟩
        · rintro (h | ⟨m, (rfl | hm), hw⟩)
          · exact Or.inl h
          · rw [hs] at hw; exact absurd hw (by simp)
          · exact Or.inr ⟨m, hm, hw⟩
      · simp only [region_scan_neighbours, hs, if_neg hv, ih, List.mem_cons]
        constructor
        · rintro (h | ⟨m, hm, hw⟩)
          · exact Or.inl h
          · exact Or.inr ⟨m, Or.inr hm, hw⟩
        · rintro (h | ⟨m, (rfl | hm), hw⟩)
          · exact Or.inl h
          · rw [hs] at hw; exact absurd hw (by simp)
          · exact Or.inr ⟨m, hm, hw⟩
    · simp only [region_scan_neighbours, hs, ih, Finset.mem_insert,
        List.mem_cons]
      constructor
      · rintro ((rfl | h) | ⟨m, hm, hw⟩)
        · exact Or.inr ⟨n, Or.inl rfl, hs⟩
        · exact Or.inl h
        · exact Or.inr ⟨m, Or.inr hm, hw⟩
      · rintro (h | ⟨m, (rfl | hm), hw⟩)
        · exact Or.inl (Or.inr h)
        · rw [hs] at hw
          exact Or.inl (Or.inl (Option.some_inj.mp hw).symm)
        · exact Or.inr ⟨m, hm, hw⟩

theorem region_scan_queue_length (stones : Board) (visited : Finset Cell) :
    ∀ (ns queue : List Cell) (nbrs : Finset ℕ),
      (region_scan_neighbours stones visited ns queue nbrs).1.length ≤
        queue.length + ns.length := by
  intro ns
  induction ns with
  | nil => simp [region_scan_neighbours]
  | cons n ns ih =>
    intro queue nbrs
    rcases hs : stones n with _ | w
    · by_cases hv : n ∈ visited
      · simp only [region_scan_neighbours, hs, if_pos hv, List.length_cons]
        exact le_trans (ih _ _) (by omega)
      · simp only [region_scan_neighbours, hs, if_neg hv, List.length_cons]
        exact le_trans (ih _ _) (by simp; omega)
    · simp only [region_scan_neighbours, hs, List.length_cons]
      exact le_trans (ih _ _) (by omega)


theorem empty_reaches_props {stones : Board} {grid_lines : ℤ} {c y : Cell}
    (h : empty_reaches stones grid_lines c y) :
    y = c ∨ (stones y = none ∧ in_bounds grid_lines y) := by
  rcases Relation.ReflTransGen.cases_tail h with h' | ⟨b, _, hstep⟩
  · exact Or.inl h'
  · exact Or.inr ⟨hstep.2, in_bounds_of_mem_get_neighbours hstep.1⟩

theorem empty_reaches_symm {stones : Board} {grid_lines : ℤ} {c y : Cell}
    (hc : in_bounds grid_lines c) (hcE : stones c = none)
    (h : empty_reaches stones grid_lines c y) :
    empty_reaches stones grid_lines y c := by
  induction h with
  | refl => exact Relation.ReflTransGen.refl
  | tail hab hbc ih =>
    rename_i b z
    have hbprops : stones b = none ∧ in_bounds grid_lines b := by
      rcases empty_reaches_props hab with rfl | h'
      · exact ⟨hcE, hc⟩
      · exact h'
    have hstep : b ∈ get_neighbours z.1 z.2 grid_lines := by
      rw [mem_get_neighbours]
      refine ⟨?_, hbprops.2⟩
      have := (mem_get_neighbours.mp hbc.1).1
      exact adjacent_symm (by simpa using this)
    exact Relation.ReflTransGen.head ⟨hstep, hbprops.1⟩ ih

theorem region_borders_congr {stones : Board} {grid_lines : ℤ} {c x : Cell}
    (hc : in_bounds grid_lines c) (hcE : stones c = none)
    (h : empty_reaches stones grid_lines c x) :
    region_borders stones grid_lines c = region_borders stones grid_lines x := by
  ext v
  simp only [region_borders, Set.mem_setOf_eq]
  constructor
  · rintro ⟨z, hz, hw⟩
    exact ⟨z, (empty_reaches_symm hc hcE h).trans hz, hw⟩
  · rintro ⟨z, hz, hw⟩
    exact ⟨z, h.trans hz, hw⟩

theorem region_inv_final {stones : Board} {grid_lines : ℤ} {start : Cell}
    {V0 visited regions : Finset Cell} {nbrs : Finset ℕ}
    (h : RegionInv stones grid_lines start V0 [] visited regions nbrs) :
    region_post stones grid_lines start V0 (visited, regions, nbrs) := by
  have hmem : ∀ c, c ∈ regions ↔ empty_reaches stones grid_lines start c := by
    intro c
    constructor
    · exact fun hc => h.regions_reach c hc
    · intro hr
      induction hr with
      | refl =>
        rcases h.start_mem with hs | ⟨_, _, _, habs⟩
        · exact hs
        · simp at habs
      | tail hab hbc ih =>
        rcases (h.closure _ ih _ hbc.1).1 hbc.2 with hg | hq
        · exact hg
        · simp at hq
  refine ⟨hmem, fun v => ?_, ?_⟩
  · constructor
    · intro hv
      obtain ⟨c, hc, n, hn, hw⟩ := h.nbrs_spec v hv
      exact ⟨c, (hmem c).mp hc, n, hn, hw⟩
    · rintro ⟨x, hx, n, hn, hw⟩
      exact (h.closure x ((hmem x).mpr hx) n hn).2 v hw
  · exact h.vis_eq

theorem find_region_aux_post (stones : Board) (grid_lines : ℤ) (start : Cell)
    (V0 : Finset Cell)
    (hV0 : ∀ y, empty_reaches stones grid_lines start y → y ∉ V0) :
    ∀ (fuel : ℕ) (queue : List Cell) (visited regions : Finset Cell)
      (nbrs : Finset ℕ),
      RegionInv stones grid_lines start V0 queue visited regions nbrs →
      4 * ((region_univ stones grid_lines start) \ visited).card +
        queue.length ≤ fuel →
      region_post stones grid_lines start V0
        (find_region_aux stones grid_lines fuel queue visited regions nbrs) := by
  intro fuel
  induction fuel with
  | zero =>
    intro queue visited regions nbrs hinv hm
    have hq : queue = [] := by
      cases queue with
      | nil => rfl
      | cons a l => simp at hm
    subst hq
    simpa [find_region_aux] using region_inv_final hinv
  | succ fuel ih =>
    intro queue visited regions nbrs hinv hm
    cases queue with
    | nil => simpa [find_region_aux] using region_inv_final hinv
    | cons c rest =>
      obtain ⟨hcr, hce, hcu⟩ := hinv.queue_reach c (List.mem_cons_self _ _)
      by_cases hc : c ∈ visited
      · rw [show find_region_aux stones grid_lines (fuel + 1) (c :: rest)
            visited regions nbrs =
            find_region_aux stones grid_lines fuel rest visited regions nbrs by
          simp [find_region_aux, if_pos hc]]
        have hcreg : c ∈ regions := by
          have := hinv.vis_eq ▸ hc
          rcases Finset.mem_union.mp this with hcv | hcreg
          · exact absurd hcv (hV0 c hcr)
          · exact hcreg
        refine ih rest visited regions nbrs ?_ ?_
        · refine ⟨hinv.vis_eq, hinv.regions_reach, ?_, ?_, hinv.nbrs_spec, ?_⟩
          · exact fun x hx => hinv.queue_reach x (List.mem_cons_of_mem _ hx)
          · intro c0 hc0 n hnb
            refine ⟨fun he => ?_, (hinv.closure c0 hc0 n hnb).2⟩
            rcases (hinv.closure c0 hc0 n hnb).1 he with hg | hq
            · exact Or.inl hg
            · rcases List.mem_cons.mp hq with rfl | hq'
              · exact Or.inl hcreg
              · exact Or.inr hq'
          · rcases hinv.start_mem with hs | ⟨hreg, _, _, _⟩
            · exact Or.inl hs
            · rw [hreg] at hcreg
              simp at hcreg
        · simp only [List.length_cons] at hm
          omega
      · rw [show find_region_aux stones grid_lines (fuel + 1) (c :: rest)
            visited regions nbrs =
            find_region_aux stones grid_lines fuel
              (region_scan_neighbours stones (insert c visited)
                (get_neighbours c.1 c.2 grid_lines) rest nbrs).1
              (insert c visited) (insert c regions)
              (region_scan_neighbours stones (insert c visited)
                (get_neighbours c.1 c.2 grid_lines) rest nbrs).2 by
          simp [find_region_aux, if_neg hc]]
        refine ih _ _ _ _ ?_ ?_
        · constructor
          · rw [hinv.vis_eq]
            ext x
            simp only [Finset.mem_insert, Finset.mem_union]
            tauto
          · intro x hx
            rcases Finset.mem_insert.mp hx with rfl | hx'
            · exact hcr
            · exact hinv.regions_reach x hx'
          · intro x hx
            rcases (region_scan_queue_mem _ _ _ _ _ _).mp hx with
              hx' | ⟨hnb, he, _⟩
            · exact hinv.queue_reach x (List.mem_cons_of_mem _ hx')
            · exact ⟨hcr.tail ⟨hnb, he⟩, he,
                Or.inr (in_bounds_of_mem_get_neighbours hnb)⟩
          · intro c0 hc0 n hnb
            rcases Finset.mem_insert.mp hc0 with rfl | hc0'
            · constructor
              · intro he
                by_cases hnv : n ∈ insert c0 visited
                · rcases Finset.mem_insert.mp hnv with rfl | hnv'
                  · exact Or.inl (Finset.mem_insert_self _ _)
                  · have hnreach : empty_reaches stones grid_lines start n :=
                      hcr.tail ⟨hnb, he⟩
                    have := hinv.vis_eq ▸ hnv'
                    rcases Finset.mem_union.mp this with hnV | hnreg
                    · exact absurd hnV (hV0 n hnreach)
                    · exact Or.inl (Finset.mem_insert_of_mem hnreg)
                · exact Or.inr ((region_scan_queue_mem _ _ _ _ _ _).mpr
                    (Or.inr ⟨hnb, he, hnv⟩))
              · intro v hv
                exact (region_scan_nbrs_mem _ _ _ _ _ _).mpr
                  (Or.inr ⟨n, hnb, hv⟩)
            · constructor
              · intro he
                rcases (hinv.closure c0 hc0' n hnb).1 he with hg | hq
                · exact Or.inl (Finset.mem_insert_of_mem hg)
                · rcases List.mem_cons.mp hq with rfl | hq'
                  · exact Or.inl (Finset.mem_insert_self _ _)
                  · exact Or.inr ((region_scan_queue_mem _ _ _ _ _ _).mpr
                      (Or.inl hq'))
              · intro v hv
                exact (region_scan_nbrs_mem _ _ _ _ _ _).mpr
                  (Or.inl ((hinv.closure c0 hc0' n hnb).2 v hv))
          · intro v hv
            rcases (region_scan_nbrs_mem _ _ _ _ _ _).mp hv with
              hv' | ⟨n, hnb, hw⟩
            · obtain ⟨c1, hc1, n, hn, hw⟩ := hinv.nbrs_spec v hv'
              exact ⟨c1, Finset.mem_insert_of_mem hc1, n, hn, hw⟩
            · exact ⟨c, Finset.mem_insert_self _ _, n, hnb, hw⟩
          · rcases hinv.start_mem with hs | ⟨_, _, _, hq⟩
            · exact Or.inl (Finset.mem_insert_of_mem hs)
            · have : c = start := by
                have := congrArg (fun l => l.head?) hq
                simpa using this
              exact Or.inl (this ▸ Finset.mem_insert_self _ _)
        · have hcuniv : c ∈ region_univ stones grid_lines start := by
            rcases hcu with rfl | hb
            · exact Finset.mem_insert_self _ _
            · exact Finset.mem_insert_of_mem
                (Finset.mem_filter.mpr ⟨mem_board_cells.mpr hb, hce⟩)
          have hcd : c ∈ region_univ stones grid_lines start \ visited :=
            Finset.mem_sdiff.mpr ⟨hcuniv, hc⟩
          have hcard : (region_univ stones grid_lines start \
              insert c visited).card =
              (region_univ stones grid_lines start \ visited).card - 1 := by
            rw [Finset.sdiff_insert, Finset.card_erase_of_mem hcd]
          have hpos : 1 ≤ (region_univ stones grid_lines start \
              visited).card := Finset.card_pos.mpr ⟨c, hcd⟩
          have hlen := region_scan_queue_length stones (insert c visited)
            (get_neighbours c.1 c.2 grid_lines) rest nbrs
          have hnb4 := length_get_neighbours_le c.1 c.2 grid_lines
          simp only [List.length_cons] at hm
          omega

theorem card_region_univ_le (stones : Board) (grid_lines : ℤ) (start : Cell) :
    (region_univ stones grid_lines start).card ≤
      grid_lines.toNat * grid_lines.toNat + 1 := by
  refine le_trans (Finset.card_insert_le _ _) ?_
  have h1 := Finset.card_filter_le (board_cells grid_lines)
    (fun c => stones c = none)
  have h2 : (board_cells grid_lines).card =
      grid_lines.toNat * grid_lines.toNat := by
    simp [board_cells, Int.card_Ico]
  omega

/-- Specification of `find_region` when called, as `calculate_score` does, on
an unvisited empty cell: it returns exactly the cell's connected empty
region, the stone values bordering that region, and marks the region
visited. -/
theorem find_region_spec (stones : Board) (grid_lines : ℤ) (start : Cell)
    (V0 : Finset Cell) (hstart : stones start = none)
    (hV0 : ∀ y, empty_reaches stones grid_lines start y → y ∉ V0) :
    (∀ c, c ∈ (find_region stones grid_lines start V0).2.1 ↔
      empty_reaches stones grid_lines start c) ∧
    (∀ v, v ∈ (find_region stones grid_lines start V0).2.2 ↔
      v ∈ region_borders stones grid_lines start) ∧
    (find_region stones grid_lines start V0).1 =
      V0 ∪ (find_region stones grid_lines start V0).2.1 := by
  have hpost := find_region_aux_post stones grid_lines start V0 hV0
    (4 * (grid_lines.toNat * grid_lines.toNat) + 5) [start] V0 ∅ ∅
    ⟨by simp, by simp, by
      intro x hx
      simp only [List.mem_singleton] at hx
      subst hx
      exact ⟨Relation.ReflTransGen.refl, hstart, Or.inl rfl⟩,
      by simp, by simp, Or.inr ⟨rfl, rfl, rfl, rfl⟩⟩
    (by
      have h1 := card_region_univ_le stones grid_lines start
      have h2 := Finset.card_le_card
        (Finset.sdiff_subset : region_univ stones grid_lines start \ V0 ⊆ _)
      simp only [List.length_singleton]
      omega)
  obtain ⟨h1, h2, h3⟩ := hpost
  exact ⟨h1, h2, h3⟩


theorem mem_all_cells_list {grid_lines : ℤ} {c : Cell} :
    c ∈ all_cells_list grid_lines ↔ in_bounds grid_lines c := by
  obtain ⟨c1, c2⟩ := c
  constructor
  · intro h
    rw [all_cells_list, List.mem_flatMap] at h
    obtain ⟨a, ha, h2⟩ := h
    rw [List.mem_range] at ha
    rw [List.mem_map] at h2
    obtain ⟨r, hr, hif⟩ := h2
    rw [List.mem_range] at hr
    obtain ⟨rfl, rfl⟩ : (a : ℤ) = c1 ∧ (r : ℤ) = c2 :=
      ⟨congrArg Prod.fst hif, congrArg Prod.snd hif⟩
    simp only [in_bounds]
    omega
  · intro hinb
    simp only [in_bounds] at hinb
    rw [all_cells_list, List.mem_flatMap]
    refine ⟨c1.toNat, by rw [List.mem_range]; omega, ?_⟩
    rw [List.mem_map]
    refine ⟨c2.toNat, by rw [List.mem_range]; omega, ?_⟩
    have e1 : (c1.toNat : ℤ) = c1 := by omega
    have e2 : (c2.toNat : ℤ) = c2 := by omega
    rw [e1, e2]

theorem border_finset_mem {stones : Board} {grid_lines : ℤ} {c : Cell}
    (hc : stones c = none) (v : ℕ) :
    v ∈ border_finset stones grid_lines c ↔
      v ∈ region_borders stones grid_lines c :=
  (find_region_spec stones grid_lines c ∅ hc (by simp)).2.1 v

theorem border_finset_congr {stones : Board} {grid_lines : ℤ} {c x : Cell}
    (hcin : in_bounds grid_lines c) (hce : stones c = none)
    (hxe : stones x = none)
    (h : empty_reaches stones grid_lines c x) :
    border_finset stones grid_lines x = border_finset stones grid_lines c := by
  ext v
  rw [border_finset_mem hxe v, border_finset_mem hce v,
    region_borders_congr hcin hce h]

/-- The scoring scan of `calculate_score`, started from a visited set that is
a union of complete empty regions, attributes each still-unvisited empty cell
once, according to the bordering colours of its region. -/
theorem score_scan (stones : Board) (grid_lines : ℤ) :
    ∀ (rest : List Cell) (P : Finset Cell) (tb tw : ℕ),
      (∀ x ∈ P, stones x = none ∧ in_bounds grid_lines x) →
      (∀ x ∈ P, ∀ y, empty_reaches stones grid_lines x y → y ∈ P) →
      (∀ c, in_bounds grid_lines c → stones c = none → c ∉ P → c ∈ rest) →
      (∀ c ∈ rest, in_bounds grid_lines c) →
      ((rest.foldl (score_step stones grid_lines) (P, tb, tw)).2.1 =
        tb + ((empty_finset stones grid_lines \ P).filter
          fun c => border_finset stones grid_lines c = {1}).card) ∧
      ((rest.foldl (score_step stones grid_lines) (P, tb, tw)).2.2 =
        tw + ((empty_finset stones grid_lines \ P).filter
          fun c => border_finset stones grid_lines c = {2}).card) := by
  intro rest
  induction rest with
  | nil =>
    intro P tb tw hPsub hPclosed hPcover hrest
    have hEP : empty_finset stones grid_lines \ P = ∅ := by
      rw [Finset.sdiff_eq_empty_iff_subset]
      intro x hx
      obtain ⟨hxb, hxe⟩ := Finset.mem_filter.mp hx
      by_contra hxP
      exact absurd (hPcover x (mem_board_cells.mp hxb) hxe hxP)
        (List.not_mem_nil x)
    rw [hEP]
    simp [List.foldl_nil]
  | cons c rest ih =>
    intro P tb tw hPsub hPclosed hPcover hrest
    rw [List.foldl_cons]
    by_cases hskip : c ∈ (P, tb, tw).1 ∨ (stones c).isSome
    · have hstep : score_step stones grid_lines (P, tb, tw) c = (P, tb, tw) := by
        rw [score_step, if_pos hskip]
      rw [hstep]
      refine ih P tb tw hPsub hPclosed ?_ ?_
      · intro c' hin he hP
        rcases List.mem_cons.mp (hPcover c' hin he hP) with rfl | h
        · rcases hskip with h' | h'
          · exact absurd h' hP
          · rw [he] at h'; simp at h'
        · exact h
      · exact fun c' h => hrest c' (List.mem_cons_of_mem _ h)
    · push_neg at hskip
      obtain ⟨hcP, hcs⟩ := hskip
      have hce : stones c = none := Option.not_isSome_iff_eq_none.mp hcs
      have hcin : in_bounds grid_lines c := hrest c (List.mem_cons_self _ _)
      have hV0 : ∀ y, empty_reaches stones grid_lines c y → y ∉ P := by
        intro y hy hyP
        exact hcP (hPclosed y hyP c (empty_reaches_symm hcin hce hy))
      obtain ⟨hR, hB, hV⟩ := find_region_spec stones grid_lines c P hce hV0
      have hRprop : ∀ x ∈ (find_region stones grid_lines c P).2.1,
          stones x = none ∧ in_bounds grid_lines x := by
        intro x hx
        rcases empty_reaches_props ((hR x).mp hx) with rfl | h'
        · exact ⟨hce, hcin⟩
        · exact h'
      have hRP : ∀ x ∈ (find_region stones grid_lines c P).2.1, x ∉ P :=
        fun x hx => hV0 x ((hR x).mp hx)
      have hRE : (find_region stones grid_lines c P).2.1 ⊆
          empty_finset stones grid_lines := by
        intro x hx
        obtain ⟨hxe, hxb⟩ := hRprop x hx
        exact Finset.mem_filter.mpr ⟨mem_board_cells.mpr hxb, hxe⟩
      have hBeq : (find_region stones grid_lines c P).2.2 =
          border_finset stones grid_lines c := by
        ext v
        rw [hB v, border_finset_mem hce v]
      have hborder : ∀ x ∈ (find_region stones grid_lines c P).2.1,
          border_finset stones grid_lines x =
            border_finset stones grid_lines c := by
        intro x hx
        exact border_finset_congr hcin hce (hRprop x hx).1 ((hR x).mp hx)
      have hcR : c ∈ (find_region stones grid_lines c P).2.1 :=
        (hR c).mpr Relation.ReflTransGen.refl
      -- split of the attributable cells
      have hEsplit : empty_finset stones grid_lines \ P =
          (find_region stones grid_lines c P).2.1 ∪
            (empty_finset stones grid_lines \
              (P ∪ (find_region stones grid_lines c P).2.1)) := by
        ext x
        simp only [Finset.mem_sdiff, Finset.mem_union]
        constructor
        · rintro ⟨hxE, hxP⟩
          by_cases hxR : x ∈ (find_region stones grid_lines c P).2.1
          · exact Or.inl hxR
          · exact Or.inr ⟨hxE, by
              rintro (h | h)
              · exact hxP h
              · exact hxR h⟩
        · rintro (hxR | ⟨hxE, hxPR⟩)
          · exact ⟨hRE hxR, hRP x hxR⟩
          · exact ⟨hxE, fun h => hxPR (Or.inl h)⟩
      have hdisjRU : Disjoint (find_region stones grid_lines c P).2.1
          (empty_finset stones grid_lines \
            (P ∪ (find_region stones grid_lines c P).2.1)) := by
        rw [Finset.disjoint_left]
        intro x hxR hxS
        exact (Finset.mem_sdiff.mp hxS).2 (Finset.mem_union_right _ hxR)
      have hPsub' : ∀ x ∈ P ∪ (find_region stones grid_lines c P).2.1,
          stones x = none ∧ in_bounds grid_lines x := by
        intro x hx
        rcases Finset.mem_union.mp hx with h | h
        · exact hPsub x h
        · exact hRprop x h
      have hPclosed' : ∀ x ∈ P ∪ (find_region stones grid_lines c P).2.1,
          ∀ y, empty_reaches stones grid_lines x y →
            y ∈ P ∪ (find_region stones grid_lines c P).2.1 := by
        intro x hx y hy
        rcases Finset.mem_union.mp hx with h | h
        · exact Finset.mem_union_left _ (hPclosed x h y hy)
        · exact Finset.mem_union_right _
            ((hR y).mpr (((hR x).mp h).trans hy))
      have hPcover' : ∀ c', in_bounds grid_lines c' → stones c' = none →
          c' ∉ P ∪ (find_region stones grid_lines c P).2.1 → c' ∈ rest := by
        intro c' hin he hP'
        rcases List.mem_cons.mp (hPcover c' hin he
          (fun h => hP' (Finset.mem_union_left _ h))) with rfl | h
        · exact absurd (Finset.mem_union_right _ hcR) hP'
        · exact h
      have hrest' : ∀ c' ∈ rest, in_bounds grid_lines c' :=
        fun c' h => hrest c' (List.mem_cons_of_mem _ h)
      have hfR1 : ((find_region stones grid_lines c P).2.1.filter
          fun x => border_finset stones grid_lines x = {1}) =
          if border_finset stones grid_lines c = {1} then
            (find_region stones grid_lines c P).2.1 else ∅ := by
        by_cases hbc : border_finset stones grid_lines c = {1}
        · rw [if_pos hbc]
          refine Finset.filter_true_of_mem ?_
          intro x hx
          rw [hborder x hx, hbc]
        · rw [if_neg hbc]
          refine Finset.filter_false_of_mem ?_
          intro x hx
          rw [hborder x hx]
          exact hbc
      have hfR2 : ((find_region stones grid_lines c P).2.1.filter
          fun x => border_finset stones grid_lines x = {2}) =
          if border_finset stones grid_lines c = {2} then
            (find_region stones grid_lines c P).2.1 else ∅ := by
        by_cases hbc : border_finset stones grid_lines c = {2}
        · rw [if_pos hbc]
          refine Finset.filter_true_of_mem ?_
          intro x hx
          rw [hborder x hx, hbc]
        · rw [if_neg hbc]
          refine Finset.filter_false_of_mem ?_
          intro x hx
          rw [hborder x hx]
          exact hbc
      have hcard1 : ((empty_finset stones grid_lines \ P).filter
          fun x => border_finset stones grid_lines x = {1}).card =
          (if border_finset stones grid_lines c = {1} then
            (find_region stones grid_lines c P).2.1.card else 0) +
          ((empty_finset stones grid_lines \
            (P ∪ (find_region stones grid_lines c P).2.1)).filter
            fun x => border_finset stones grid_lines x = {1}).card := by
        rw [hEsplit, Finset.filter_union,
          Finset.card_union_of_disjoint
            (Finset.disjoint_filter_filter hdisjRU), hfR1]
        by_cases hbc : border_finset stones grid_lines c = {1}
        · rw [if_pos hbc, if_pos hbc]
        · rw [if_neg hbc, if_neg hbc]
          simp
      have hcard2 : ((empty_finset stones grid_lines \ P).filter
          fun x => border_finset stones grid_lines x = {2}).card =
          (if border_finset stones grid_lines c = {2} then
            (find_region stones grid_lines c P).2.1.card else 0) +
          ((empty_finset stones grid_lines \
            (P ∪ (find_region stones grid_lines c P).2.1)).filter
            fun x => border_finset stones grid_lines x = {2}).card := by
        rw [hEsplit, Finset.filter_union,
          Finset.card_union_of_disjoint
            (Finset.disjoint_filter_filter hdisjRU), hfR2]
        by_cases hbc : border_finset stones grid_lines c = {2}
        · rw [if_pos hbc, if_pos hbc]
        · rw [if_neg hbc, if_neg hbc]
          simp
      -- reduce the step
      have hstep : score_step stones grid_lines (P, tb, tw) c =
          ((find_region stones grid_lines c P).1,
           tb + (if border_finset stones grid_lines c = {1} then
             (find_region stones grid_lines c P).2.1.card else 0),
           tw + (if border_finset stones grid_lines c = {2} then
             (find_region stones grid_lines c P).2.1.card else 0)) := by
        simp only [score_step]
        rw [if_neg (by
          rintro (h | h)
          · exact hcP h
          · rw [hce] at h; simp at h)]
        rw [hBeq]
        by_cases hb1 : border_finset stones grid_lines c = {1}
        · rw [hb1]
          simp
        · by_cases hb2 : border_finset stones grid_lines c = {2}
          · rw [hb2]
            simp
          · rw [if_neg hb1, if_neg hb2]
            by_cases hcard : (border_finset stones grid_lines c).card = 1
            · rw [if_pos hcard, if_neg hb1, if_neg hb2]
              simp [hb1, hb2]
            · rw [if_neg hcard]
              simp [hb1, hb2]
      rw [hstep, hV]
      obtain ⟨ih1, ih2⟩ := ih (P ∪ (find_region stones grid_lines c P).2.1)
        (tb + (if border_finset stones grid_lines c = {1} then
          (find_region stones grid_lines c P).2.1.card else 0))
        (tw + (if border_finset stones grid_lines c = {2} then
          (find_region stones grid_lines c P).2.1.card else 0))
        hPsub' hPclosed' hPcover' hrest'
      refine ⟨?_, ?_⟩
      · rw [ih1, hcard1]
        omega
      · rw [ih2, hcard2]
        omega


/-- C5: the territory computed by `calculate_score` attributes each in-bounds
empty cell exactly once, by the bordering stone values of its maximal
4-connected empty region: a cell counts for black exactly when that set is
precisely {1}, for white exactly when it is precisely {2}, and for neither
player otherwise (zero, two, or other bordering values).  The first conjunct
ties the computed border set to its specification as the stone values
adjacent to the cell's region. -/
theorem calculate_score_territory_attribution (stones : Board)
    (grid_lines : ℤ) (captured_black captured_white : ℕ) :
    (∀ c, stones c = none → ∀ v,
      v ∈ border_finset stones grid_lines c ↔
        v ∈ region_borders stones grid_lines c) ∧
    calculate_score stones grid_lines captured_black captured_white =
      ((((empty_finset stones grid_lines).filter
          fun c => border_finset stones grid_lines c = {1}).card : ℚ) +
        captured_white,
       (((empty_finset stones grid_lines).filter
          fun c => border_finset stones grid_lines c = {2}).card : ℚ) +
        captured_black + 7.5) := by
  refine ⟨fun c hc v => border_finset_mem hc v, ?_⟩
  obtain ⟨h1, h2⟩ := score_scan stones grid_lines (all_cells_list grid_lines)
    ∅ 0 0 (by simp) (by simp)
    (fun c hin he _ => mem_all_cells_list.mpr hin)
    (fun c h => mem_all_cells_list.mp h)
  rw [Finset.sdiff_empty] at h1 h2
  simp only [calculate_score]
  rw [h1, h2]
  refine Prod.ext ?_ ?_
  · push_cast
    ring
  · push_cast
    ring


end GoGame
